import Mathlib

/-!
# Singleflight: duplicate-call suppression (`singleflight.go`)

A shallow embedding of `Group.Do` as a statement-level transition system.
Every activation of `Do` (a "caller") owns a frame holding its program
counter and its local variables; one transition executes one statement of
`Do` for one caller, so an arbitrary list of caller identifiers is an
arbitrary interleaving of goroutines.
-/

namespace Singleflight

/-- A value of type `interface{}`: `none` is Go's `nil`. -/
abbrev Val := Option Int

/-- A value of type `error`: `none` is Go's `nil`. -/
abbrev GoError := Option String

/-- The struct `call` of the source: `wg` is the counter of the
`sync.WaitGroup`, `val` and `err` the published result. -/
structure call where
  wg : Nat
  val : Val
  err : GoError
deriving DecidableEq

/-- The value `new(call)` yields: every field is zero. -/
def call.zero : call := ⟨0, none, none⟩

/-- The map `map[string]*call`, as an association list from keys to heap
addresses of `call` records with at most one entry per key. -/
abbrev Registry := List (String × Nat)

/-- Map read `r[key]`. -/
def Registry.get (r : Registry) (key : String) : Option Nat :=
  match r with
  | [] => none
  | (k, c) :: rest => if k = key then some c else Registry.get rest key

/-- Map removal `delete(r, key)`. -/
def Registry.del (r : Registry) (key : String) : Registry :=
  match r with
  | [] => []
  | (k, c) :: rest => if k = key then Registry.del rest key else (k, c) :: Registry.del rest key

/-- Map write `r[key] = c`. -/
def Registry.set (r : Registry) (key : String) (c : Nat) : Registry :=
  (key, c) :: Registry.del r key

/-- The struct `Group` of the source. `mu` is the mutex: `none` when it is
unlocked, `some a` when caller `a` locked it. `m` is the lazily initialised
map: `none` is the nil map of the zero value. -/
structure Group where
  mu : Option Nat
  m : Option Registry
deriving DecidableEq

/-- The zero value of `Group`. -/
def Group.zero : Group := ⟨none, none⟩

/-- The comma-ok read `c, ok := g.m[key]`; reading a nil map finds nothing. -/
def Group.lookup (g : Group) (key : String) : Option Nat :=
  match g.m with
  | none => none
  | some r => r.get key

/-- How a call of the caller-supplied `fn` ends: it returns a pair, or it
panics. -/
inductive Outcome where
  | ret (v : Val) (e : GoError)
  | panic
deriving DecidableEq

/-- The caller-supplied function `fn func() (interface{}, error)`. Its body
acts on a state `W` that the callers share (a counter, a database, ...).
`prim body` is a function that does not touch the group; `nested key inner`
is the function `func() (interface{}, error) { return g.Do(key, inner) }`,
which calls back into the same group on the same goroutine. -/
inductive Fn (W : Type) where
  | prim (body : W → Outcome × W)
  | nested (key : String) (inner : Fn W)

/-- Program points of `Do`, named after the source line about to be
executed. `inFn` is the point inside `fn()` on line 40, `l40w` the store of
the two results of `fn()` into `c.val, c.err` on the same line. -/
inductive Pc where
  | l26 | l27 | l30 | l31 | l32 | l33 | l35 | l36 | l37 | l38
  | l40 | inFn | l40w | l41 | l43 | l44 | l45 | l47
  | done | panicked
deriving DecidableEq

/-- The activation record of one call of `Do`: the program counter, the
parameters `key` and `fn`, the locals `c` and `ok`, the two results `rv, re`
of `fn()` before they are stored, the pair `result` that `Do` returned, the
identifier `child` of the nested call made by `fn`, and the number `calls` of
invocations of `fn` made by this activation. -/
structure Frame (W : Type) where
  pc : Pc
  key : String
  fn : Fn W
  c : Nat
  ok : Bool
  rv : Val
  re : GoError
  child : Nat
  calls : Nat
  result : Val × GoError

/-- The frame of a call `Do(key, fn)` that has not executed anything yet. -/
def Frame.start {W : Type} (key : String) (fn : Fn W) : Frame W :=
  { pc := .l26, key := key, fn := fn, c := 0, ok := false, rv := none, re := none,
    child := 0, calls := 0, result := (none, none) }

/-- A configuration: the group, the heap of `call` records with its
allocation pointer `next`, the state `world` that the functions `fn` act on,
and the `nacts` activations of `Do`. -/
structure State (W : Type) where
  g : Group
  heap : Nat → call
  next : Nat
  world : W
  acts : Nat → Frame W
  nacts : Nat

/-- Replace the frame of caller `a`. -/
def State.setAct {W : Type} (s : State W) (a : Nat) (f : Frame W) : State W :=
  { s with acts := fun b => if b = a then f else s.acts b }

/-- Replace the `call` record at address `c`. -/
def State.setCall {W : Type} (s : State W) (c : Nat) (r : call) : State W :=
  { s with heap := fun d => if d = c then r else s.heap d }

/-- One statement of `Do` executed by caller `a`; `none` when the caller
cannot move: it is blocked in `Lock` or `Wait`, its `fn` is still running a
nested call, it has returned or panicked, or it does not exist. -/
def step {W : Type} (s : State W) (a : Nat) : Option (State W) :=
  if a < s.nacts then
    let f := s.acts a
    match f.pc with
    | .l26 =>
      -- g.mu.Lock()
      match s.g.mu with
      | none => some ({ s with g := { s.g with mu := some a } }.setAct a { f with pc := .l27 })
      | some _ => none
    | .l27 =>
      -- if g.m == nil { g.m = make(map[string]*call) }
      match s.g.m with
      | none => some ({ s with g := { s.g with m := some [] } }.setAct a { f with pc := .l30 })
      | some _ => some (s.setAct a { f with pc := .l30 })
    | .l30 =>
      -- if c, ok := g.m[key]; ok {
      match s.g.lookup f.key with
      | some c => some (s.setAct a { f with c := c, ok := true, pc := .l31 })
      | none => some (s.setAct a { f with ok := false, pc := .l35 })
    | .l31 =>
      -- g.mu.Unlock()
      match s.g.mu with
      | none => some (s.setAct a { f with pc := .panicked })
      | some _ => some ({ s with g := { s.g with mu := none } }.setAct a { f with pc := .l32 })
    | .l32 =>
      -- c.wg.Wait()
      if (s.heap f.c).wg = 0 then some (s.setAct a { f with pc := .l33 }) else none
    | .l33 =>
      -- return c.val, c.err
      some (s.setAct a { f with pc := .done, result := ((s.heap f.c).val, (s.heap f.c).err) })
    | .l35 =>
      -- c := new(call)
      some (({ s with next := s.next + 1 }.setCall s.next call.zero).setAct a
        { f with c := s.next, pc := .l36 })
    | .l36 =>
      -- c.wg.Add(1)
      some ((s.setCall f.c { s.heap f.c with wg := (s.heap f.c).wg + 1 }).setAct a
        { f with pc := .l37 })
    | .l37 =>
      -- g.m[key] = c
      match s.g.m with
      | none => some (s.setAct a { f with pc := .panicked })
      | some r =>
        some ({ s with g := { s.g with m := some (r.set f.key f.c) } }.setAct a
          { f with pc := .l38 })
    | .l38 =>
      -- g.mu.Unlock()
      match s.g.mu with
      | none => some (s.setAct a { f with pc := .panicked })
      | some _ => some ({ s with g := { s.g with mu := none } }.setAct a { f with pc := .l40 })
    | .l40 =>
      -- c.val, c.err = fn(): the call of fn
      match f.fn with
      | .prim _ => some (s.setAct a { f with calls := f.calls + 1, pc := .inFn })
      | .nested key inner =>
        some (({ s with nacts := s.nacts + 1 }.setAct s.nacts (Frame.start key inner)).setAct a
          { f with calls := f.calls + 1, child := s.nacts, pc := .inFn })
    | .inFn =>
      -- c.val, c.err = fn(): fn runs and returns (or panics)
      match f.fn with
      | .prim body =>
        match body s.world with
        | (.ret v e, w) => some ({ s with world := w }.setAct a { f with rv := v, re := e, pc := .l40w })
        | (.panic, w) => some ({ s with world := w }.setAct a { f with pc := .panicked })
      | .nested _ _ =>
        match (s.acts f.child).pc with
        | .done =>
          some (s.setAct a
            { f with rv := (s.acts f.child).result.1, re := (s.acts f.child).result.2, pc := .l40w })
        | .panicked => some (s.setAct a { f with pc := .panicked })
        | _ => none
    | .l40w =>
      -- c.val, c.err = fn(): the store of the results
      some ((s.setCall f.c { s.heap f.c with val := f.rv, err := f.re }).setAct a
        { f with pc := .l41 })
    | .l41 =>
      -- c.wg.Done()
      if (s.heap f.c).wg = 0 then some (s.setAct a { f with pc := .panicked })
      else
        some ((s.setCall f.c { s.heap f.c with wg := (s.heap f.c).wg - 1 }).setAct a
          { f with pc := .l43 })
    | .l43 =>
      -- g.mu.Lock()
      match s.g.mu with
      | none => some ({ s with g := { s.g with mu := some a } }.setAct a { f with pc := .l44 })
      | some _ => none
    | .l44 =>
      -- delete(g.m, key)
      match s.g.m with
      | none => some (s.setAct a { f with pc := .l45 })
      | some r =>
        some ({ s with g := { s.g with m := some (r.del f.key) } }.setAct a { f with pc := .l45 })
    | .l45 =>
      -- g.mu.Unlock()
      match s.g.mu with
      | none => some (s.setAct a { f with pc := .panicked })
      | some _ => some ({ s with g := { s.g with mu := none } }.setAct a { f with pc := .l47 })
    | .l47 =>
      -- return c.val, c.err
      some (s.setAct a { f with pc := .done, result := ((s.heap f.c).val, (s.heap f.c).err) })
    | .done => none
    | .panicked => none
  else none

/-- Run a schedule: the callers of the list move one statement each, in
order; a caller that cannot move when it is picked is skipped. -/
def run {W : Type} (s : State W) (sched : List Nat) : State W :=
  match sched with
  | [] => s
  | a :: rest => run ((step s a).getD s) rest

/-- The frames of the pending calls `Do(key, fn)` of a list. -/
def startActs {W : Type} (dflt : Fn W) (calls : List (String × Fn W)) (a : Nat) : Frame W :=
  match calls[a]? with
  | some (key, fn) => Frame.start key fn
  | none => Frame.start "" dflt

/-- The initial configuration: a zero-value group, an empty heap, and one
activation at the entry of `Do` for every call of the list. -/
def start {W : Type} (w : W) (calls : List (String × Fn W)) : State W :=
  { g := Group.zero, heap := fun _ => call.zero, next := 0, world := w,
    acts := startActs (.prim fun x => (.panic, x)) calls, nacts := calls.length }

/-- A configuration is reachable when some schedule leads to it from an
initial configuration. -/
def Reachable {W : Type} (s : State W) : Prop :=
  ∃ (w : W) (calls : List (String × Fn W)) (sched : List Nat), s = run (start w calls) sched

/-- The function `counter++; return counter, nil` on a shared counter. -/
def incr : Fn Nat := .prim fun n => (.ret (some (n + 1 : Nat)) none, n + 1)

variable {W : Type}

/-- The transitions of `step`, one constructor per branch, for case analysis. -/
inductive Trans (s : State W) (t : Nat) : State W → Prop where
  | lock26 (hpc : (s.acts t).pc = .l26) (hmu : s.g.mu = none) :
      Trans s t ({ s with g := { s.g with mu := some t } }.setAct t { (s.acts t) with pc := .l27 })
  | make27 (hpc : (s.acts t).pc = .l27) (hm : s.g.m = none) :
      Trans s t ({ s with g := { s.g with m := some [] } }.setAct t { (s.acts t) with pc := .l30 })
  | skip27 (hpc : (s.acts t).pc = .l27) (r : Registry) (hm : s.g.m = some r) :
      Trans s t (s.setAct t { (s.acts t) with pc := .l30 })
  | found30 (hpc : (s.acts t).pc = .l30) (c : Nat) (hl : s.g.lookup (s.acts t).key = some c) :
      Trans s t (s.setAct t { (s.acts t) with c := c, ok := true, pc := .l31 })
  | missed30 (hpc : (s.acts t).pc = .l30) (hl : s.g.lookup (s.acts t).key = none) :
      Trans s t (s.setAct t { (s.acts t) with ok := false, pc := .l35 })
  | crash31 (hpc : (s.acts t).pc = .l31) (hmu : s.g.mu = none) :
      Trans s t (s.setAct t { (s.acts t) with pc := .panicked })
  | unlock31 (hpc : (s.acts t).pc = .l31) (x : Nat) (hmu : s.g.mu = some x) :
      Trans s t ({ s with g := { s.g with mu := none } }.setAct t { (s.acts t) with pc := .l32 })
  | wait32 (hpc : (s.acts t).pc = .l32) (hwg : (s.heap (s.acts t).c).wg = 0) :
      Trans s t (s.setAct t { (s.acts t) with pc := .l33 })
  | ret33 (hpc : (s.acts t).pc = .l33) :
      Trans s t (s.setAct t
        { (s.acts t) with
          pc := .done, result := ((s.heap (s.acts t).c).val, (s.heap (s.acts t).c).err) })
  | new35 (hpc : (s.acts t).pc = .l35) :
      Trans s t (({ s with next := s.next + 1 }.setCall s.next call.zero).setAct t
        { (s.acts t) with c := s.next, pc := .l36 })
  | add36 (hpc : (s.acts t).pc = .l36) :
      Trans s t ((s.setCall (s.acts t).c
        { (s.heap (s.acts t).c) with wg := (s.heap (s.acts t).c).wg + 1 }).setAct t
        { (s.acts t) with pc := .l37 })
  | crash37 (hpc : (s.acts t).pc = .l37) (hm : s.g.m = none) :
      Trans s t (s.setAct t { (s.acts t) with pc := .panicked })
  | store37 (hpc : (s.acts t).pc = .l37) (r : Registry) (hm : s.g.m = some r) :
      Trans s t ({ s with g := { s.g with m := some (r.set (s.acts t).key (s.acts t).c) } }.setAct t
        { (s.acts t) with pc := .l38 })
  | crash38 (hpc : (s.acts t).pc = .l38) (hmu : s.g.mu = none) :
      Trans s t (s.setAct t { (s.acts t) with pc := .panicked })
  | unlock38 (hpc : (s.acts t).pc = .l38) (x : Nat) (hmu : s.g.mu = some x) :
      Trans s t ({ s with g := { s.g with mu := none } }.setAct t { (s.acts t) with pc := .l40 })
  | call40 (hpc : (s.acts t).pc = .l40) (body : W → Outcome × W) (hfn : (s.acts t).fn = .prim body) :
      Trans s t (s.setAct t { (s.acts t) with calls := (s.acts t).calls + 1, pc := .inFn })
  | spawn40 (hpc : (s.acts t).pc = .l40) (key : String) (inner : Fn W)
      (hfn : (s.acts t).fn = .nested key inner) :
      Trans s t (({ s with nacts := s.nacts + 1 }.setAct s.nacts (Frame.start key inner)).setAct t
        { (s.acts t) with calls := (s.acts t).calls + 1, child := s.nacts, pc := .inFn })
  | fnRet (hpc : (s.acts t).pc = .inFn) (body : W → Outcome × W) (hfn : (s.acts t).fn = .prim body)
      (v : Val) (e : GoError) (w : W) (hb : body s.world = (.ret v e, w)) :
      Trans s t ({ s with world := w }.setAct t { (s.acts t) with rv := v, re := e, pc := .l40w })
  | fnPanic (hpc : (s.acts t).pc = .inFn) (body : W → Outcome × W) (hfn : (s.acts t).fn = .prim body)
      (w : W) (hb : body s.world = (.panic, w)) :
      Trans s t ({ s with world := w }.setAct t { (s.acts t) with pc := .panicked })
  | childRet (hpc : (s.acts t).pc = .inFn) (key : String) (inner : Fn W)
      (hfn : (s.acts t).fn = .nested key inner) (hch : (s.acts (s.acts t).child).pc = .done) :
      Trans s t (s.setAct t
        { (s.acts t) with
          rv := (s.acts (s.acts t).child).result.1,
          re := (s.acts (s.acts t).child).result.2, pc := .l40w })
  | childPanic (hpc : (s.acts t).pc = .inFn) (key : String) (inner : Fn W)
      (hfn : (s.acts t).fn = .nested key inner) (hch : (s.acts (s.acts t).child).pc = .panicked) :
      Trans s t (s.setAct t { (s.acts t) with pc := .panicked })
  | write40 (hpc : (s.acts t).pc = .l40w) :
      Trans s t ((s.setCall (s.acts t).c
        { (s.heap (s.acts t).c) with val := (s.acts t).rv, err := (s.acts t).re }).setAct t
        { (s.acts t) with pc := .l41 })
  | crash41 (hpc : (s.acts t).pc = .l41) (hwg : (s.heap (s.acts t).c).wg = 0) :
      Trans s t (s.setAct t { (s.acts t) with pc := .panicked })
  | done41 (hpc : (s.acts t).pc = .l41) (hwg : (s.heap (s.acts t).c).wg ≠ 0) :
      Trans s t ((s.setCall (s.acts t).c
        { (s.heap (s.acts t).c) with wg := (s.heap (s.acts t).c).wg - 1 }).setAct t
        { (s.acts t) with pc := .l43 })
  | lock43 (hpc : (s.acts t).pc = .l43) (hmu : s.g.mu = none) :
      Trans s t ({ s with g := { s.g with mu := some t } }.setAct t { (s.acts t) with pc := .l44 })
  | skip44 (hpc : (s.acts t).pc = .l44) (hm : s.g.m = none) :
      Trans s t (s.setAct t { (s.acts t) with pc := .l45 })
  | delete44 (hpc : (s.acts t).pc = .l44) (r : Registry) (hm : s.g.m = some r) :
      Trans s t ({ s with g := { s.g with m := some (r.del (s.acts t).key) } }.setAct t
        { (s.acts t) with pc := .l45 })
  | crash45 (hpc : (s.acts t).pc = .l45) (hmu : s.g.mu = none) :
      Trans s t (s.setAct t { (s.acts t) with pc := .panicked })
  | unlock45 (hpc : (s.acts t).pc = .l45) (x : Nat) (hmu : s.g.mu = some x) :
      Trans s t ({ s with g := { s.g with mu := none } }.setAct t { (s.acts t) with pc := .l47 })
  | ret47 (hpc : (s.acts t).pc = .l47) :
      Trans s t (s.setAct t
        { (s.acts t) with
          pc := .done, result := ((s.heap (s.acts t).c).val, (s.heap (s.acts t).c).err) })

/-- The program points at which a caller holds `g.mu`. -/
def Pc.holds (p : Pc) : Prop :=
  p = .l27 ∨ p = .l30 ∨ p = .l31 ∨ p = .l35 ∨ p = .l36 ∨ p = .l37 ∨ p = .l38 ∨ p = .l44 ∨ p = .l45

/-- The program points of the executing path from line 36 on. -/
def Pc.exec (p : Pc) : Prop :=
  p = .l36 ∨ p = .l37 ∨ p = .l38 ∨ p = .l40 ∨ p = .inFn ∨ p = .l40w ∨ p = .l41 ∨ p = .l43 ∨
    p = .l44 ∨ p = .l45 ∨ p = .l47 ∨ p = .panicked

/-- From the registration on line 37 to the deletion on line 44; a caller
whose `fn` panicked stays there. -/
def Pc.window (p : Pc) : Prop :=
  p = .l38 ∨ p = .l40 ∨ p = .inFn ∨ p = .l40w ∨ p = .l41 ∨ p = .l43 ∨ p = .l44 ∨ p = .panicked

/-- After `c.wg.Add(1)` and before `c.wg.Done()`. -/
def Pc.armed (p : Pc) : Prop :=
  p = .l37 ∨ p = .l38 ∨ p = .l40 ∨ p = .inFn ∨ p = .l40w ∨ p = .l41 ∨ p = .panicked

/-- After `c.wg.Done()`, on the executing path. -/
def Pc.after (p : Pc) : Prop :=
  p = .l43 ∨ p = .l44 ∨ p = .l45 ∨ p = .l47

/-- After the call of `fn` on line 40. -/
def Pc.called (p : Pc) : Prop :=
  p = .inFn ∨ p = .l40w ∨ p = .l41 ∨ p = .l43 ∨ p = .l44 ∨ p = .l45 ∨ p = .l47 ∨ p = .panicked

/-- The waiting path, lines 31 to 33. -/
def Pc.waits (p : Pc) : Prop :=
  p = .l31 ∨ p = .l32 ∨ p = .l33

/-- The caller returned through line 47. -/
def Frame.doneExec (f : Frame W) : Prop := f.pc = .done ∧ f.ok = false

/-- The caller returned through line 33. -/
def Frame.doneWait (f : Frame W) : Prop := f.pc = .done ∧ f.ok = true

/-- The caller allocated the `call` its local `c` points to. -/
def Frame.owner (f : Frame W) : Prop := f.pc.exec ∨ f.doneExec

/-- The caller executed `c.wg.Done()`. -/
def Frame.released (f : Frame W) : Prop := f.pc.after ∨ f.doneExec

/-- The invariant of the reachable configurations. -/
structure Inv (s : State W) : Prop where
  lock_of_holds : ∀ a, a < s.nacts → (s.acts a).pc.holds → s.g.mu = some a
  holds_of_lock : ∀ a, s.g.mu = some a → a < s.nacts ∧ (s.acts a).pc.holds
  map_made : ∀ a, a < s.nacts → (s.acts a).pc ≠ .l26 → (s.acts a).pc ≠ .l27 → s.g.m ≠ none
  ok_exec : ∀ a, a < s.nacts → (s.acts a).pc = .l35 ∨ (s.acts a).pc.exec → (s.acts a).ok = false
  ok_wait : ∀ a, a < s.nacts → (s.acts a).pc.waits → (s.acts a).ok = true
  fresh : ∀ a, a < s.nacts → (s.acts a).pc = .l35 ∨ (s.acts a).pc = .l36 ∨ (s.acts a).pc = .l37 →
    s.g.lookup (s.acts a).key = none
  alloc : ∀ a, a < s.nacts → (s.acts a).owner → (s.acts a).c < s.next
  uniq : ∀ a b, a < s.nacts → b < s.nacts → (s.acts a).owner → (s.acts b).owner →
    (s.acts a).c = (s.acts b).c → a = b
  reg : ∀ a, a < s.nacts → (s.acts a).pc.window → s.g.lookup (s.acts a).key = some (s.acts a).c
  reg_owner : ∀ k c, s.g.lookup k = some c →
    ∃ a, a < s.nacts ∧ (s.acts a).key = k ∧ (s.acts a).c = c ∧ (s.acts a).pc.window
  wg_armed : ∀ a, a < s.nacts → (s.acts a).pc.armed → (s.heap (s.acts a).c).wg = 1
  wg_zero : ∀ a, a < s.nacts → (s.acts a).pc = .l36 ∨ (s.acts a).released →
    (s.heap (s.acts a).c).wg = 0
  published : ∀ a, a < s.nacts → (s.acts a).pc = .l41 ∨ (s.acts a).released →
    (s.heap (s.acts a).c).val = (s.acts a).rv ∧ (s.heap (s.acts a).c).err = (s.acts a).re
  result_exec : ∀ a, a < s.nacts → (s.acts a).doneExec →
    (s.acts a).result = ((s.acts a).rv, (s.acts a).re)
  result_wait : ∀ a, a < s.nacts → (s.acts a).doneWait →
    (s.acts a).result = ((s.heap (s.acts a).c).val, (s.heap (s.acts a).c).err)
  calls_one : ∀ a, a < s.nacts → (s.acts a).pc.called ∨ (s.acts a).doneExec → (s.acts a).calls = 1
  calls_zero : ∀ a, a < s.nacts → ¬ ((s.acts a).pc.called ∨ (s.acts a).doneExec) →
    (s.acts a).calls = 0
  waiter : ∀ b, b < s.nacts → (s.acts b).pc.waits ∨ (s.acts b).doneWait →
    ∃ a, a < s.nacts ∧ (s.acts a).key = (s.acts b).key ∧ (s.acts a).c = (s.acts b).c ∧
      ((s.acts a).pc.window ∨ (s.acts a).released) ∧
      ((s.acts b).pc = .l33 ∨ (s.acts b).pc = .done → (s.acts a).released)

/-- Number of statements a caller at program point `p` still executes before
it unlocks `g.mu`, when it holds it. -/
def Pc.rank : Pc → Nat
  | .l27 => 6
  | .l30 => 5
  | .l35 => 4
  | .l36 => 3
  | .l37 => 2
  | .l38 => 1
  | .l31 => 1
  | .l44 => 2
  | .l45 => 1
  | _ => 0

/-- The caller found its key unregistered and is registering or has
registered its own `call`: from line 35 to the deletion on line 44. -/
def Pc.first (p : Pc) : Prop :=
  p = .l35 ∨ p = .l36 ∨ p = .l37 ∨ p.window

/-- A function that panics. -/
def panics : Fn Nat := .prim fun n => (.panic, n)

/-- Three calls `Do("k", _)`: caller 0 registers the key and its `fn`
panics, caller 1 is waiting in `c.wg.Wait()` at that moment, caller 2 has not
started. -/
def panicRun : State Nat :=
  run (start 0 [("k", panics), ("k", incr), ("k", incr)])
    [0, 0, 0, 0, 0, 0, 0, 0, 1, 1, 1, 1, 0]

/-- What the call `fn()` of caller `a` returns if it returns now: the body of
a `prim` function applied to the shared state, the outcome of the nested call
of a `nested` function once that call has ended. -/
def fnOutcome (s : State W) (a : Nat) : Option Outcome :=
  match (s.acts a).fn with
  | .prim body => some (body s.world).1
  | .nested _ _ =>
    match (s.acts (s.acts a).child).pc with
    | .done => some (.ret (s.acts (s.acts a).child).result.1 (s.acts (s.acts a).child).result.2)
    | .panicked => some .panic
    | _ => none

/-- Caller `a` holds the lock with its key unregistered, or is on the
executing path before its `fn` returned. -/
def beforeFn (s : State W) (a : Nat) : Prop :=
  (((s.acts a).pc = .l27 ∨ (s.acts a).pc = .l30) ∧ s.g.lookup (s.acts a).key = none) ∨
    (s.acts a).pc = .l35 ∨ (s.acts a).pc = .l36 ∨ (s.acts a).pc = .l37 ∨ (s.acts a).pc = .l38 ∨
    (s.acts a).pc = .l40 ∨ (s.acts a).pc = .inFn

/-- Caller `a` is on the executing path after its `fn` returned `(v, e)`. -/
def afterFn (s : State W) (a : Nat) (v : Val) (e : GoError) : Prop :=
  ((s.acts a).pc = .l40w ∨ (s.acts a).pc = .l41 ∨ (s.acts a).released) ∧
    (s.acts a).rv = v ∧ (s.acts a).re = e

/-- The nested call made by a re-entrant `fn`: a caller inside
`fn = nested k inner` has a live child activation for `Do(k, inner)`; when `k`
is the caller's own key, the child is on lines 26 to 32, and from line 31 on
its local `c` is the `call` of the caller. -/
def ChildInv (s : State W) : Prop :=
  ∀ a, a < s.nacts → (s.acts a).pc = .inFn → ∀ k inner, (s.acts a).fn = .nested k inner →
    (s.acts a).child < s.nacts ∧ (s.acts a).child ≠ a ∧
    (s.acts (s.acts a).child).key = k ∧
    (k = (s.acts a).key →
      (s.acts (s.acts a).child).pc = .l26 ∨ (s.acts (s.acts a).child).pc = .l27 ∨
      (s.acts (s.acts a).child).pc = .l30 ∨
      (((s.acts (s.acts a).child).pc = .l31 ∨ (s.acts (s.acts a).child).pc = .l32) ∧
        (s.acts (s.acts a).child).c = (s.acts a).c))

/-- The `fn` of this caller has returned to it: the caller is on the executing
path after `fn()`, or it returned through line 47. -/
def Frame.returnedFn (f : Frame W) : Bool :=
  match f.pc with
  | .l40w | .l41 | .l43 | .l44 | .l45 | .l47 => true
  | .done => !f.ok
  | _ => false

/-- The number of callers whose `fn` has returned. -/
def execCount (s : State W) : Nat :=
  (List.range s.nacts).countP fun a => (s.acts a).returnedFn

/-- The caller has executed the lookup on line 30. -/
def Frame.lookedUp (f : Frame W) : Prop :=
  f.pc ≠ .l26 ∧ f.pc ≠ .l27 ∧ f.pc ≠ .l30

/-- The caller has executed `delete(g.m, key)` on line 44. -/
def Frame.deleted (f : Frame W) : Prop :=
  f.pc = .l45 ∨ f.pc = .l47 ∨ f.doneExec

instance (f : Frame W) : Decidable f.lookedUp := by
  unfold Frame.lookedUp
  infer_instance

instance (f : Frame W) : Decidable f.deleted := by
  unfold Frame.deleted Frame.doneExec
  infer_instance

/-- The configurations of `N` calls `Do(k, incr)`: every caller has key `k`
and function `incr`, none has panicked, and the counter has increased by the
number of callers whose `fn` has returned. -/
def CountInv (N : Nat) (k : String) (w0 : Nat) (s : State Nat) : Prop :=
  s.nacts = N ∧
  (∀ a, a < N → (s.acts a).key = k ∧ (s.acts a).fn = incr ∧ (s.acts a).pc ≠ .panicked) ∧
  s.world = w0 + execCount s

/-- Two pending calls `Do("k", incr)` on a zero-value group. -/
def twoCalls : State Nat := start 0 [("k", incr), ("k", incr)]

/-- One call `Do("k", incr)` that has just taken the lock. -/
def lockedState : State Nat := run (start 0 [("k", incr)]) [0]

/-- Caller 0 has registered `"k"` and unlocked; caller 1 has not started. -/
def registeredState : State Nat := run twoCalls [0, 0, 0, 0, 0, 0, 0]

/-- Caller 0 has registered `"k"`; caller 1 found it and is in `Wait`. -/
def waitingState : State Nat := run twoCalls [0, 0, 0, 0, 0, 0, 0, 1, 1, 1, 1]

/-- Caller 0 has registered `"a"`; caller 1, with key `"b"`, has not started. -/
def otherKeyState : State Nat :=
  run (start 0 [("a", incr), ("b", incr)]) [0, 0, 0, 0, 0, 0, 0]

/-- A caller about to call an `fn` that calls `Do` again with the same key. -/
def reentrantState : State Nat :=
  run (start 0 [("k", .nested "k" incr)]) [0, 0, 0, 0, 0, 0, 0]

/-- The body of `incr`. -/
def incrBody : Nat → Outcome × Nat := fun n => (.ret (some (n + 1 : Nat)) none, n + 1)

/-- Number of statements of the executing path that a caller at program point
`p` has still to execute before it has returned. -/
def Pc.left : Pc → Nat
  | .l27 => 14
  | .l30 => 13
  | .l35 => 12
  | .l36 => 11
  | .l37 => 10
  | .l38 => 9
  | .l40 => 8
  | .inFn => 7
  | .l40w => 6
  | .l41 => 5
  | .l43 => 4
  | .l44 => 3
  | .l45 => 2
  | .l47 => 1
  | _ => 0

/-- Two calls `Do("k", incr)` on a zero-value group, caller 0 just after
`Lock`, caller 1 not started. -/
def lockedPair : State Nat := run twoCalls [0]

/-- One call `Do("k", fn)` on a zero-value group, just after `Lock`, whose
`fn` calls `Do("j", incr)` on the same group. -/
def nestedState : State Nat := run (start 0 [("k", .nested "j" incr)]) [0]

/-- Two calls `Do("k", incr)`: caller 0 registered its `call`, caller 1 found
it and is parked in `Wait`, then caller 0 ran to its return. -/
def completedState : State Nat :=
  run twoCalls (List.replicate 7 0 ++ List.replicate 4 1 ++ List.replicate 8 0)

/-- Just after its `delete` on line 44, while it still holds the lock, a
caller finds no `call` registered under its key. -/
def Deleted (s : State W) : Prop :=
  ∀ a, a < s.nacts → (s.acts a).pc = .l45 → s.g.lookup (s.acts a).key = none

/-- Two calls `Do("k", incr)` on a zero-value group: caller 0 runs up to its
`Unlock` on line 45, caller 1 then runs up to its registration on line 37,
and caller 0 returns. -/
def reRegistered : State Nat :=
  run twoCalls (List.replicate 14 0 ++ List.replicate 6 1 ++ [0])

/-! ## The invariant is preserved by every statement -/

@[simp] theorem Frame.start_pc (k : String) (fn : Fn W) : (Frame.start k fn).pc = .l26 := rfl
@[simp] theorem Frame.start_key (k : String) (fn : Fn W) : (Frame.start k fn).key = k := rfl
@[simp] theorem Frame.start_fn (k : String) (fn : Fn W) : (Frame.start k fn).fn = fn := rfl
@[simp] theorem Frame.start_ok (k : String) (fn : Fn W) : (Frame.start k fn).ok = false := rfl
@[simp] theorem Frame.start_calls (k : String) (fn : Fn W) : (Frame.start k fn).calls = 0 := rfl


theorem step_lt {s s' : State W} {t : Nat} (hs : step s t = some s') : t < s.nacts := by
  unfold step at hs
  split_ifs at hs with ht
  exact ht

theorem Trans.of_step {s s' : State W} {t : Nat} (hs : step s t = some s') : Trans s t s' := by
  unfold step at hs
  split_ifs at hs with ht
  simp only at hs
  split at hs <;> (try split at hs) <;> (try split at hs) <;>
    first
    | (exact Option.noConfusion hs)
    | (obtain rfl := Option.some.inj hs
       first
       | exact .lock26 ‹_› ‹_›
       | exact .make27 ‹_› ‹_›
       | exact .skip27 ‹_› _ ‹_›
       | exact .found30 ‹_› _ ‹_›
       | exact .missed30 ‹_› ‹_›
       | exact .crash31 ‹_› ‹_›
       | exact .unlock31 ‹_› _ ‹_›
       | exact .wait32 ‹_› ‹_›
       | exact .ret33 ‹_›
       | exact .new35 ‹_›
       | exact .add36 ‹_›
       | exact .crash37 ‹_› ‹_›
       | exact .store37 ‹_› _ ‹_›
       | exact .crash38 ‹_› ‹_›
       | exact .unlock38 ‹_› _ ‹_›
       | exact .call40 ‹_› _ ‹_›
       | exact .spawn40 ‹_› _ _ ‹_›
       | exact .fnRet ‹_› _ ‹_› _ _ _ ‹_›
       | exact .fnPanic ‹_› _ ‹_› _ ‹_›
       | exact .childRet ‹_› _ _ ‹_› ‹_›
       | exact .childPanic ‹_› _ _ ‹_› ‹_›
       | exact .write40 ‹_›
       | exact .crash41 ‹_› ‹_›
       | exact .done41 ‹_› ‹_›
       | exact .lock43 ‹_› ‹_›
       | exact .skip44 ‹_› ‹_›
       | exact .delete44 ‹_› _ ‹_›
       | exact .crash45 ‹_› ‹_›
       | exact .unlock45 ‹_› _ ‹_›
       | exact .ret47 ‹_›)

theorem Registry.get_del (r : Registry) (k k' : String) :
    (r.del k).get k' = if k = k' then none else r.get k' := by
  induction r with
  | nil => simp [Registry.del, Registry.get]
  | cons p rest ih =>
    obtain ⟨k0, c0⟩ := p
    by_cases h0 : k0 = k
    · subst h0
      by_cases h1 : k0 = k'
      · subst h1
        simpa [Registry.del, Registry.get] using ih
      · simpa [Registry.del, Registry.get, h1] using ih
    · by_cases h1 : k = k'
      · subst h1
        simpa [Registry.del, Registry.get, h0] using ih
      · by_cases h2 : k0 = k'
        · subst h2
          simp [Registry.del, Registry.get, h0, h1]
        · simpa [Registry.del, Registry.get, h0, h1, h2] using ih

theorem Registry.get_set (r : Registry) (k : String) (c : Nat) (k' : String) :
    (r.set k c).get k' = if k = k' then some c else r.get k' := by
  by_cases h : k = k' <;> simp [Registry.set, Registry.get, Registry.get_del, h]

theorem Inv.lock_of_holds_step {s s' : State W} {t : Nat} (h : Inv s) (ht : t < s.nacts)
    (hs : Trans s t s') : ∀ a, a < s'.nacts → (s'.acts a).pc.holds → s'.g.mu = some a := by
  intro b hb hh
  have h1t := h.lock_of_holds t ht
  have h1b := h.lock_of_holds b
  have h2b := h.holds_of_lock b
  have h2t := h.holds_of_lock t
  clear h
  cases hs <;> simp only [State.setAct, State.setCall] at hb hh ⊢ <;>
    by_cases hbt : b = t <;> simp_all [Pc.holds]
  rename_i hh
  split_ifs at hh with h1
  · simp at hh
  · exact h1b (by omega) hh

theorem Inv.holds_of_lock_step {s s' : State W} {t : Nat} (h : Inv s) (ht : t < s.nacts)
    (hs : Trans s t s') : ∀ a, s'.g.mu = some a → a < s'.nacts ∧ (s'.acts a).pc.holds := by
  intro b hb
  have h1t := h.lock_of_holds t ht
  have hmt := h.map_made t ht
  have h2b := h.holds_of_lock b
  clear h
  cases hs <;> simp only [State.setAct, State.setCall] at hb ⊢ <;>
    by_cases hbt : b = t <;> simp_all [Pc.holds]
  have : b ≠ s.nacts := by omega
  simp_all
  omega

theorem Inv.map_made_step {s s' : State W} {t : Nat} (h : Inv s) (ht : t < s.nacts)
    (hs : Trans s t s') :
    ∀ a, a < s'.nacts → (s'.acts a).pc ≠ .l26 → (s'.acts a).pc ≠ .l27 → s'.g.m ≠ none := by
  intro b hb h26 h27
  have h1t := h.lock_of_holds t ht
  have hmt := h.map_made t ht
  have hmb := h.map_made b
  clear h
  cases hs <;> simp only [State.setAct, State.setCall] at hb h26 h27 ⊢ <;>
    by_cases hbt : b = t <;> simp_all [Pc.holds]

theorem Inv.ok_exec_step {s s' : State W} {t : Nat} (h : Inv s) (ht : t < s.nacts)
    (hs : Trans s t s') :
    ∀ a, a < s'.nacts → (s'.acts a).pc = .l35 ∨ (s'.acts a).pc.exec → (s'.acts a).ok = false := by
  intro b hb hh
  have h1t := h.lock_of_holds t ht
  have hmt := h.map_made t ht
  have hwt := h.wg_armed t ht
  have hob := h.ok_exec b
  clear h
  cases hs <;> simp only [State.setAct, State.setCall] at hb hh ⊢ <;>
    by_cases hbt : b = t <;> simp_all [Pc.holds, Pc.exec, Pc.armed]
  split_ifs at hh with h1
  · simp at hh
  · simp only [h1, if_false]
    exact hob (by omega) hh

theorem Inv.ok_wait_step {s s' : State W} {t : Nat} (h : Inv s) (ht : t < s.nacts)
    (hs : Trans s t s') :
    ∀ a, a < s'.nacts → (s'.acts a).pc.waits → (s'.acts a).ok = true := by
  intro b hb hh
  have hob := h.ok_wait b
  clear h
  cases hs <;> simp only [State.setAct, State.setCall] at hb hh ⊢ <;>
    by_cases hbt : b = t <;> simp_all [Pc.waits]
  split_ifs at hh with h1
  · simp at hh
  · simp only [h1, if_false]
    exact hob (by omega) hh

theorem Inv.fresh_step {s s' : State W} {t : Nat} (h : Inv s) (ht : t < s.nacts)
    (hs : Trans s t s') :
    ∀ a, a < s'.nacts → (s'.acts a).pc = .l35 ∨ (s'.acts a).pc = .l36 ∨ (s'.acts a).pc = .l37 →
      s'.g.lookup (s'.acts a).key = none := by
  intro b hb hh
  have h1t := h.lock_of_holds t ht
  have h1b := h.lock_of_holds b
  have hfb := h.fresh b
  clear h
  cases hs
  case spawn40 =>
    simp only [State.setAct, State.setCall] at hb hh ⊢
    by_cases hbt : b = t
    · subst hbt; simp at hh
    · by_cases hbn : b = s.nacts
      · subst hbn; simp [hbt] at hh
      · simp only [hbt, hbn, if_false] at hh ⊢
        exact hfb (by omega) hh
  case store37 hpc r hm =>
    simp only [State.setAct, State.setCall] at hb hh ⊢
    by_cases hbt : b = t
    · subst hbt; simp at hh
    · simp only [hbt, if_false] at hh
      exact absurd ((h1b hb (by unfold Pc.holds; tauto)).symm.trans (h1t (by simp [Pc.holds, hpc])))
        (by simpa using hbt)
  case delete44 hpc r hm =>
    simp only [State.setAct, State.setCall] at hb hh ⊢
    by_cases hbt : b = t
    · subst hbt; simp at hh
    · simp only [hbt, if_false] at hh
      exact absurd ((h1b hb (by unfold Pc.holds; tauto)).symm.trans (h1t (by simp [Pc.holds, hpc])))
        (by simpa using hbt)
  all_goals
    simp only [State.setAct, State.setCall] at hb hh ⊢
    by_cases hbt : b = t <;> simp_all [Pc.holds, Group.lookup, Registry.get]

theorem Inv.alloc_step {s s' : State W} {t : Nat} (h : Inv s) (ht : t < s.nacts)
    (hs : Trans s t s') :
    ∀ a, a < s'.nacts → (s'.acts a).owner → (s'.acts a).c < s'.next := by
  intro b hb hh
  have h1t := h.lock_of_holds t ht
  have hmt := h.map_made t ht
  have hwt := h.wg_armed t ht
  have hab := h.alloc b
  have hot := h.ok_wait t ht
  clear h
  cases hs
  case spawn40 =>
    simp only [State.setAct, State.setCall] at hb hh ⊢
    by_cases hbt : b = t
    · subst hbt
      simp only [if_true] at hh ⊢
      exact hab ht (by simp_all [Frame.owner, Pc.exec, Frame.doneExec])
    · by_cases hbn : b = s.nacts
      · subst hbn; simp [hbt, Frame.owner, Pc.exec, Frame.doneExec] at hh
      · simp only [hbt, hbn, if_false] at hh ⊢
        exact hab (by omega) hh
  case new35 hpc =>
    simp only [State.setAct, State.setCall] at hb hh ⊢
    by_cases hbt : b = t
    · subst hbt; simp
    · simp only [hbt, if_false] at hh ⊢
      exact Nat.lt_succ_of_lt (hab hb hh)
  all_goals
    simp only [State.setAct, State.setCall] at hb hh ⊢
    by_cases hbt : b = t <;>
      simp_all [Pc.holds, Frame.owner, Pc.exec, Frame.doneExec, Pc.armed, Pc.waits]

theorem Trans.other {s s' : State W} {t b : Nat} (hs : Trans s t s') (hbt : b ≠ t)
    (hb : b < s'.nacts) :
    (b < s.nacts ∧ s'.acts b = s.acts b) ∨ (b = s.nacts ∧ ∃ k f, s'.acts b = Frame.start k f) := by
  cases hs
  case spawn40 hpc key inner hfn =>
    simp only [State.setAct, State.setCall] at hb ⊢
    by_cases hbn : b = s.nacts
    · right
      refine ⟨hbn, key, inner, ?_⟩
      rw [if_neg hbt, if_pos hbn]
    · left
      exact ⟨by omega, by rw [if_neg hbt, if_neg hbn]⟩
  all_goals
    simp only [State.setAct, State.setCall] at hb ⊢
    left
    exact ⟨hb, by simp [hbt]⟩

theorem Trans.nacts_le {s s' : State W} {t : Nat} (hs : Trans s t s') : s.nacts ≤ s'.nacts := by
  cases hs <;> simp [State.setAct, State.setCall]

theorem Trans.next_le {s s' : State W} {t : Nat} (hs : Trans s t s') : s.next ≤ s'.next := by
  cases hs <;> simp [State.setAct, State.setCall]

theorem Trans.key_eq {s s' : State W} {t : Nat} (hs : Trans s t s') :
    (s'.acts t).key = (s.acts t).key ∧ (s'.acts t).fn = (s.acts t).fn := by
  cases hs <;> simp [State.setAct, State.setCall]

theorem Inv.owner_step {s s' : State W} {t : Nat} (h : Inv s) (ht : t < s.nacts)
    (hs : Trans s t s') (ho : (s'.acts t).owner) :
    ((s.acts t).owner ∧ (s'.acts t).c = (s.acts t).c) ∨
      ((s.acts t).pc = .l35 ∧ (s'.acts t).c = s.next) := by
  have h1t := h.lock_of_holds t ht
  have hmt := h.map_made t ht
  have hwt := h.wg_armed t ht
  have hot := h.ok_wait t ht
  have hoe := h.ok_exec t ht
  clear h
  cases hs <;> simp only [State.setAct, State.setCall] at ho ⊢ <;>
    simp_all [Pc.holds, Frame.owner, Pc.exec, Frame.doneExec, Pc.armed, Pc.waits]

theorem Inv.uniq_step {s s' : State W} {t : Nat} (h : Inv s) (ht : t < s.nacts)
    (hs : Trans s t s') :
    ∀ a b, a < s'.nacts → b < s'.nacts → (s'.acts a).owner → (s'.acts b).owner →
      (s'.acts a).c = (s'.acts b).c → a = b := by
  have key : ∀ b, b ≠ t → b < s'.nacts → (s'.acts b).owner → (s'.acts t).owner →
      (s'.acts b).c = (s'.acts t).c → False := by
    intro b hbt hb hob hot hc
    rcases hs.other hbt hb with ⟨hb1, hb2⟩ | ⟨_, k, f, hb2⟩
    · rw [hb2] at hob hc
      rcases h.owner_step ht hs hot with ⟨h1, h2⟩ | ⟨h1, h2⟩
      · exact hbt (h.uniq b t hb1 ht hob h1 (hc.trans h2))
      · have := h.alloc b hb1 hob
        omega
    · rw [hb2] at hob
      simp [Frame.owner, Pc.exec, Frame.doneExec] at hob
  intro a b ha hb hoa hob hc
  by_cases hat : a = t
  · by_cases hbt : b = t
    · rw [hat, hbt]
    · subst hat
      exact (key b hbt hb hob hoa hc.symm).elim
  · by_cases hbt : b = t
    · subst hbt
      exact (key a hat ha hoa hob hc).elim
    · rcases hs.other hat ha with ⟨ha1, ha2⟩ | ⟨_, k, f, ha2⟩
      · rcases hs.other hbt hb with ⟨hb1, hb2⟩ | ⟨_, k, f, hb2⟩
        · rw [ha2] at hoa hc
          rw [hb2] at hob hc
          exact h.uniq a b ha1 hb1 hoa hob hc
        · rw [hb2] at hob
          simp [Frame.owner, Pc.exec, Frame.doneExec] at hob
      · rw [ha2] at hoa
        simp [Frame.owner, Pc.exec, Frame.doneExec] at hoa

theorem Inv.lookup_step {s s' : State W} {t : Nat} (h : Inv s) (ht : t < s.nacts)
    (hs : Trans s t s') (k : String) :
    s'.g.lookup k =
      if (s.acts t).pc = .l37 ∧ (s.acts t).key = k then some (s.acts t).c
      else if (s.acts t).pc = .l44 ∧ (s.acts t).key = k then none
      else s.g.lookup k := by
  have hmt := h.map_made t ht
  clear h
  cases hs <;> simp only [State.setAct, State.setCall] <;>
    simp_all [Group.lookup, Registry.get, Registry.get_set, Registry.get_del]

theorem Inv.window_step {s s' : State W} {t : Nat} (h : Inv s) (ht : t < s.nacts)
    (hs : Trans s t s') (hw : (s'.acts t).pc.window) :
    (s'.acts t).c = (s.acts t).c ∧
      ((s.acts t).pc = .l37 ∨ ((s.acts t).pc.window ∧ (s.acts t).pc ≠ .l44)) := by
  have h1t := h.lock_of_holds t ht
  have hmt := h.map_made t ht
  have hwt := h.wg_armed t ht
  clear h
  cases hs <;> simp only [State.setAct, State.setCall] at hw ⊢ <;>
    simp_all [Pc.holds, Pc.window, Pc.armed]

theorem Inv.reg_step {s s' : State W} {t : Nat} (h : Inv s) (ht : t < s.nacts)
    (hs : Trans s t s') :
    ∀ a, a < s'.nacts → (s'.acts a).pc.window →
      s'.g.lookup (s'.acts a).key = some (s'.acts a).c := by
  intro b hb hw
  rw [h.lookup_step ht hs]
  by_cases hbt : b = t
  · subst hbt
    obtain ⟨hc, h37 | ⟨hw0, h44⟩⟩ := h.window_step ht hs hw
    · simp [h37, hs.key_eq.1, hc]
    · have h37 : (s.acts b).pc ≠ .l37 := by
        intro h0; simp [Pc.window, h0] at hw0
      simp [h37, h44, hs.key_eq.1, hc, h.reg b ht hw0]
  · rcases hs.other hbt hb with ⟨hb1, hb2⟩ | ⟨_, k, f, hb2⟩
    · rw [hb2] at hw ⊢
      have hrb := h.reg b hb1 hw
      by_cases h37 : (s.acts t).pc = .l37
      · have hft := h.fresh t ht (by simp [h37])
        by_cases hk : (s.acts t).key = (s.acts b).key
        · rw [← hk, hft] at hrb; simp at hrb
        · simp [h37, hk, hrb]
      · by_cases h44 : (s.acts t).pc = .l44
        · by_cases hk : (s.acts t).key = (s.acts b).key
          · have hrt := h.reg t ht (by simp [Pc.window, h44])
            rw [← hk, hrt] at hrb
            have hbo : (s.acts b).owner := by
              unfold Frame.owner Pc.exec; unfold Pc.window at hw; tauto
            have hto : (s.acts t).owner := by
              simp [Frame.owner, Pc.exec, h44]
            exact absurd (h.uniq b t hb1 ht hbo hto (Option.some.inj hrb).symm) hbt
          · simp [h37, hk, hrb]
        · simp [h37, h44, hrb]
    · rw [hb2] at hw
      simp [Pc.window] at hw

theorem Inv.reg_owner_step {s s' : State W} {t : Nat} (h : Inv s) (ht : t < s.nacts)
    (hs : Trans s t s') :
    ∀ k c, s'.g.lookup k = some c →
      ∃ a, a < s'.nacts ∧ (s'.acts a).key = k ∧ (s'.acts a).c = c ∧ (s'.acts a).pc.window := by
  intro k c hl
  rw [h.lookup_step ht hs] at hl
  have hkeep : ∀ a, a ≠ t → a < s.nacts → s'.acts a = s.acts a := by
    intro a hat ha
    rcases hs.other hat (lt_of_lt_of_le ha hs.nacts_le) with ⟨_, h2⟩ | ⟨h1, _⟩
    · exact h2
    · omega
  have hlocal : (s.acts t).pc = .l37 ∨ ((s.acts t).pc.window ∧ (s.acts t).pc ≠ .l44) →
      (s'.acts t).c = (s.acts t).c ∧ (s'.acts t).pc.window := by
    have h1t := h.lock_of_holds t ht
    have hmt := h.map_made t ht
    have hwt := h.wg_armed t ht
    cases hs <;> simp only [State.setAct, State.setCall] <;>
      simp_all [Pc.holds, Pc.window, Pc.armed]
  by_cases h37 : (s.acts t).pc = .l37 ∧ (s.acts t).key = k
  · rw [if_pos h37] at hl
    obtain ⟨hc, hw⟩ := hlocal (Or.inl h37.1)
    exact ⟨t, lt_of_lt_of_le ht hs.nacts_le, by rw [hs.key_eq.1, h37.2], by
      rw [hc]; exact Option.some.inj hl, hw⟩
  · rw [if_neg h37] at hl
    by_cases h44 : (s.acts t).pc = .l44 ∧ (s.acts t).key = k
    · rw [if_pos h44] at hl; simp at hl
    · rw [if_neg h44] at hl
      obtain ⟨a, ha, hk, hc, hw⟩ := h.reg_owner k c hl
      by_cases hat : a = t
      · subst hat
        have h44' : (s.acts a).pc ≠ .l44 := fun h0 => h44 ⟨h0, hk⟩
        obtain ⟨hc2, hw2⟩ := hlocal (Or.inr ⟨hw, h44'⟩)
        exact ⟨a, lt_of_lt_of_le ha hs.nacts_le, by rw [hs.key_eq.1, hk], by rw [hc2, hc], hw2⟩
      · refine ⟨a, lt_of_lt_of_le ha hs.nacts_le, ?_, ?_, ?_⟩ <;> rw [hkeep a hat ha] <;>
          assumption

theorem Trans.heap_other {s s' : State W} {t : Nat} (hs : Trans s t s') (d : Nat)
    (hd : d ≠ (s'.acts t).c) : s'.heap d = s.heap d := by
  cases hs <;> simp only [State.setAct, State.setCall] at hd ⊢ <;> simp_all

theorem Trans.heap_eq_of_not_owner {s s' : State W} {t : Nat} (hs : Trans s t s')
    (hn : ¬ (s'.acts t).owner) : s'.heap = s.heap := by
  cases hs <;> simp only [State.setAct, State.setCall] at hn ⊢ <;>
    simp_all [Frame.owner, Pc.exec, Frame.doneExec]

theorem Trans.heap_eq_of_released {s s' : State W} {t : Nat} (hs : Trans s t s')
    (hr : (s.acts t).released) : s'.heap = s.heap := by
  cases hs <;> simp only [State.setAct, State.setCall] at hr ⊢ <;>
    simp_all [Frame.released, Pc.after, Frame.doneExec]

theorem Inv.heap_stable {s s' : State W} {t : Nat} (h : Inv s) (ht : t < s.nacts)
    (hs : Trans s t s') (b : Nat) (hbt : b ≠ t) (hb : b < s.nacts) (ho : (s.acts b).owner) :
    s'.heap (s.acts b).c = s.heap (s.acts b).c := by
  have hb2 : s'.acts b = s.acts b := by
    rcases hs.other hbt (lt_of_lt_of_le hb hs.nacts_le) with ⟨_, h2⟩ | ⟨h1, _⟩
    · exact h2
    · omega
  by_cases hot : (s'.acts t).owner
  · apply hs.heap_other
    intro hc
    have := h.uniq_step ht hs b t (lt_of_lt_of_le hb hs.nacts_le) (lt_of_lt_of_le ht hs.nacts_le)
      (by rw [hb2]; exact ho) hot (by rw [hb2]; exact hc)
    exact hbt this
  · rw [hs.heap_eq_of_not_owner hot]

theorem Inv.wg_local {s s' : State W} {t : Nat} (h : Inv s) (ht : t < s.nacts)
    (hs : Trans s t s') :
    ((s'.acts t).pc.armed → (s'.heap (s'.acts t).c).wg = 1) ∧
    ((s'.acts t).pc = .l36 ∨ (s'.acts t).released → (s'.heap (s'.acts t).c).wg = 0) := by
  have h1t := h.lock_of_holds t ht
  have hmt := h.map_made t ht
  have hwt := h.wg_armed t ht
  have hzt := h.wg_zero t ht
  have hot := h.ok_wait t ht
  have hoe := h.ok_exec t ht
  clear h
  cases hs <;> simp only [State.setAct, State.setCall] <;>
    simp_all [Pc.holds, Pc.armed, Frame.released, Pc.after, Frame.doneExec, Pc.waits, Pc.exec,
      call.zero]

theorem Inv.published_local {s s' : State W} {t : Nat} (h : Inv s) (ht : t < s.nacts)
    (hs : Trans s t s') :
    ((s'.acts t).pc = .l41 ∨ (s'.acts t).released →
      (s'.heap (s'.acts t).c).val = (s'.acts t).rv ∧
        (s'.heap (s'.acts t).c).err = (s'.acts t).re) ∧
    ((s'.acts t).doneExec → (s'.acts t).result = ((s'.acts t).rv, (s'.acts t).re)) ∧
    ((s'.acts t).doneWait →
      (s'.acts t).result = ((s'.heap (s'.acts t).c).val, (s'.heap (s'.acts t).c).err)) := by
  have h1t := h.lock_of_holds t ht
  have hmt := h.map_made t ht
  have hwt := h.wg_armed t ht
  have hpt := h.published t ht
  have hot := h.ok_wait t ht
  have hoe := h.ok_exec t ht
  clear h
  cases hs <;> simp only [State.setAct, State.setCall] <;>
    simp_all [Pc.holds, Pc.armed, Frame.released, Pc.after, Frame.doneExec, Frame.doneWait,
      Pc.waits, Pc.exec, call.zero]

theorem Inv.calls_local {s s' : State W} {t : Nat} (h : Inv s) (ht : t < s.nacts)
    (hs : Trans s t s') :
    ((s'.acts t).pc.called ∨ (s'.acts t).doneExec → (s'.acts t).calls = 1) ∧
    (¬ ((s'.acts t).pc.called ∨ (s'.acts t).doneExec) → (s'.acts t).calls = 0) := by
  have h1t := h.lock_of_holds t ht
  have hmt := h.map_made t ht
  have hwt := h.wg_armed t ht
  have hc1 := h.calls_one t ht
  have hc0 := h.calls_zero t ht
  have hot := h.ok_wait t ht
  have hoe := h.ok_exec t ht
  clear h
  cases hs <;> simp only [State.setAct, State.setCall] <;>
    simp_all [Pc.holds, Pc.armed, Pc.called, Frame.doneExec, Pc.waits, Pc.exec]

theorem owner_of_armed {f : Frame W} (h : f.pc.armed) : f.owner := by
  unfold Frame.owner Pc.exec; unfold Pc.armed at h; tauto

theorem owner_of_window {f : Frame W} (h : f.pc.window) : f.owner := by
  unfold Frame.owner Pc.exec; unfold Pc.window at h; tauto

theorem owner_of_released {f : Frame W} (h : f.released) : f.owner := by
  unfold Frame.owner Pc.exec; unfold Frame.released Pc.after at h; tauto

theorem Inv.wg_armed_step {s s' : State W} {t : Nat} (h : Inv s) (ht : t < s.nacts)
    (hs : Trans s t s') :
    ∀ a, a < s'.nacts → (s'.acts a).pc.armed → (s'.heap (s'.acts a).c).wg = 1 := by
  intro b hb hh
  by_cases hbt : b = t
  · subst hbt
    exact (h.wg_local ht hs).1 hh
  · rcases hs.other hbt hb with ⟨hb1, hb2⟩ | ⟨_, k, f, hb2⟩
    · rw [hb2] at hh ⊢
      rw [h.heap_stable ht hs b hbt hb1 (owner_of_armed hh)]
      exact h.wg_armed b hb1 hh
    · rw [hb2] at hh
      simp [Pc.armed] at hh

theorem Inv.wg_zero_step {s s' : State W} {t : Nat} (h : Inv s) (ht : t < s.nacts)
    (hs : Trans s t s') :
    ∀ a, a < s'.nacts → (s'.acts a).pc = .l36 ∨ (s'.acts a).released →
      (s'.heap (s'.acts a).c).wg = 0 := by
  intro b hb hh
  by_cases hbt : b = t
  · subst hbt
    exact (h.wg_local ht hs).2 hh
  · rcases hs.other hbt hb with ⟨hb1, hb2⟩ | ⟨_, k, f, hb2⟩
    · rw [hb2] at hh ⊢
      have ho : (s.acts b).owner := by
        rcases hh with h0 | h0
        · simp [Frame.owner, Pc.exec, h0]
        · exact (owner_of_released h0)
      rw [h.heap_stable ht hs b hbt hb1 ho]
      exact h.wg_zero b hb1 hh
    · rw [hb2] at hh
      simp [Frame.released, Pc.after, Frame.doneExec] at hh

theorem Inv.published_step {s s' : State W} {t : Nat} (h : Inv s) (ht : t < s.nacts)
    (hs : Trans s t s') :
    ∀ a, a < s'.nacts → (s'.acts a).pc = .l41 ∨ (s'.acts a).released →
      (s'.heap (s'.acts a).c).val = (s'.acts a).rv ∧
        (s'.heap (s'.acts a).c).err = (s'.acts a).re := by
  intro b hb hh
  by_cases hbt : b = t
  · subst hbt
    exact (h.published_local ht hs).1 hh
  · rcases hs.other hbt hb with ⟨hb1, hb2⟩ | ⟨_, k, f, hb2⟩
    · rw [hb2] at hh ⊢
      have ho : (s.acts b).owner := by
        rcases hh with h0 | h0
        · simp [Frame.owner, Pc.exec, h0]
        · exact (owner_of_released h0)
      rw [h.heap_stable ht hs b hbt hb1 ho]
      exact h.published b hb1 hh
    · rw [hb2] at hh
      simp [Frame.released, Pc.after, Frame.doneExec] at hh

theorem Inv.result_exec_step {s s' : State W} {t : Nat} (h : Inv s) (ht : t < s.nacts)
    (hs : Trans s t s') :
    ∀ a, a < s'.nacts → (s'.acts a).doneExec →
      (s'.acts a).result = ((s'.acts a).rv, (s'.acts a).re) := by
  intro b hb hh
  by_cases hbt : b = t
  · subst hbt
    exact (h.published_local ht hs).2.1 hh
  · rcases hs.other hbt hb with ⟨hb1, hb2⟩ | ⟨_, k, f, hb2⟩
    · rw [hb2] at hh ⊢
      exact h.result_exec b hb1 hh
    · rw [hb2] at hh
      simp [Frame.doneExec] at hh

theorem Inv.result_wait_step {s s' : State W} {t : Nat} (h : Inv s) (ht : t < s.nacts)
    (hs : Trans s t s') :
    ∀ a, a < s'.nacts → (s'.acts a).doneWait →
      (s'.acts a).result = ((s'.heap (s'.acts a).c).val, (s'.heap (s'.acts a).c).err) := by
  intro b hb hh
  by_cases hbt : b = t
  · subst hbt
    exact (h.published_local ht hs).2.2 hh
  · rcases hs.other hbt hb with ⟨hb1, hb2⟩ | ⟨_, k, f, hb2⟩
    · rw [hb2] at hh ⊢
      obtain ⟨a, ha, _, hc, _, hrel⟩ := h.waiter b hb1 (Or.inr hh)
      have hra := hrel (Or.inr hh.1)
      have hheap : s'.heap (s.acts b).c = s.heap (s.acts b).c := by
        by_cases hat : a = t
        · subst hat
          rw [hs.heap_eq_of_released hra]
        · rw [← hc]
          exact h.heap_stable ht hs a hat ha (owner_of_released hra)
      rw [hheap]
      exact h.result_wait b hb1 hh
    · rw [hb2] at hh
      simp [Frame.doneWait] at hh

theorem Inv.calls_one_step {s s' : State W} {t : Nat} (h : Inv s) (ht : t < s.nacts)
    (hs : Trans s t s') :
    ∀ a, a < s'.nacts → (s'.acts a).pc.called ∨ (s'.acts a).doneExec →
      (s'.acts a).calls = 1 := by
  intro b hb hh
  by_cases hbt : b = t
  · subst hbt
    exact (h.calls_local ht hs).1 hh
  · rcases hs.other hbt hb with ⟨hb1, hb2⟩ | ⟨_, k, f, hb2⟩
    · rw [hb2] at hh ⊢
      exact h.calls_one b hb1 hh
    · rw [hb2] at hh
      simp [Pc.called, Frame.doneExec] at hh

theorem Inv.calls_zero_step {s s' : State W} {t : Nat} (h : Inv s) (ht : t < s.nacts)
    (hs : Trans s t s') :
    ∀ a, a < s'.nacts → ¬ ((s'.acts a).pc.called ∨ (s'.acts a).doneExec) →
      (s'.acts a).calls = 0 := by
  intro b hb hh
  by_cases hbt : b = t
  · subst hbt
    exact (h.calls_local ht hs).2 hh
  · rcases hs.other hbt hb with ⟨hb1, hb2⟩ | ⟨_, k, f, hb2⟩
    · rw [hb2] at hh ⊢
      exact h.calls_zero b hb1 hh
    · rw [hb2]
      simp

/-- A caller inside the registration window or past it keeps its key and its
`call`, and stays there. -/
theorem Inv.stay_step {s s' : State W} {t : Nat} (h : Inv s) (ht : t < s.nacts)
    (hs : Trans s t s') (hw : (s.acts t).pc.window ∨ (s.acts t).released) :
    (s'.acts t).c = (s.acts t).c ∧ ((s'.acts t).pc.window ∨ (s'.acts t).released) ∧
      ((s.acts t).released → (s'.acts t).released) := by
  have h1t := h.lock_of_holds t ht
  have hmt := h.map_made t ht
  have hwt := h.wg_armed t ht
  have hoe := h.ok_exec t ht
  clear h
  cases hs <;> simp only [State.setAct, State.setCall] <;>
    simp_all [Pc.holds, Pc.armed, Pc.window, Frame.released, Pc.after, Frame.doneExec, Pc.exec]

/-- What the steps of the waiting path do to the waiting caller itself. -/
theorem Inv.waiter_local {s s' : State W} {t : Nat} (h : Inv s) (ht : t < s.nacts)
    (hs : Trans s t s') (hw : (s'.acts t).pc.waits ∨ (s'.acts t).doneWait) :
    ((s.acts t).pc = .l30 ∧ (s'.acts t).pc = .l31 ∧
        s.g.lookup (s.acts t).key = some (s'.acts t).c) ∨
      (((s.acts t).pc.waits) ∧ (s'.acts t).c = (s.acts t).c ∧
        ((s'.acts t).pc = .l33 ∨ (s'.acts t).pc = .done →
          (s.acts t).pc = .l33 ∨ (s.heap (s.acts t).c).wg = 0)) := by
  have h1t := h.lock_of_holds t ht
  have hmt := h.map_made t ht
  have hwt := h.wg_armed t ht
  have hoe := h.ok_exec t ht
  clear h
  cases hs <;> simp only [State.setAct, State.setCall] at hw ⊢ <;>
    simp_all [Pc.holds, Pc.armed, Pc.waits, Frame.doneWait, Pc.exec]

theorem Frame.not_waits_of_reg {f : Frame W} (h : f.pc.window ∨ f.released) :
    ¬ f.pc.waits ∧ f.pc ≠ .l30 := by
  unfold Pc.window Frame.released Pc.after Frame.doneExec at h
  unfold Pc.waits
  constructor
  · intro hw
    rcases h with h | h | h <;> rcases hw with hw | hw | hw <;> simp_all
  · intro hw
    rcases h with h | h | h <;> simp_all

theorem Frame.armed_of_window {f : Frame W} (h : f.pc.window) (hn : ¬ f.released) :
    f.pc.armed := by
  unfold Pc.window at h
  unfold Frame.released Pc.after at hn
  unfold Pc.armed
  tauto

theorem Inv.waiter_step {s s' : State W} {t : Nat} (h : Inv s) (ht : t < s.nacts)
    (hs : Trans s t s') :
    ∀ b, b < s'.nacts → (s'.acts b).pc.waits ∨ (s'.acts b).doneWait →
      ∃ a, a < s'.nacts ∧ (s'.acts a).key = (s'.acts b).key ∧ (s'.acts a).c = (s'.acts b).c ∧
        ((s'.acts a).pc.window ∨ (s'.acts a).released) ∧
        ((s'.acts b).pc = .l33 ∨ (s'.acts b).pc = .done → (s'.acts a).released) := by
  have hkeep : ∀ a, a ≠ t → a < s.nacts → s'.acts a = s.acts a := by
    intro a hat ha
    rcases hs.other hat (lt_of_lt_of_le ha hs.nacts_le) with ⟨_, h2⟩ | ⟨h1, _⟩
    · exact h2
    · omega
  intro b hb hh
  by_cases hbt : b = t
  · subst hbt
    rcases h.waiter_local ht hs hh with ⟨h30, h31, hl⟩ | ⟨hw, hc, hr⟩
    · obtain ⟨a, ha, hk, hca, hwa⟩ := h.reg_owner _ _ hl
      have hab : a ≠ b := by
        intro h0; subst h0
        exact (Frame.not_waits_of_reg (Or.inl hwa)).2 h30
      refine ⟨a, lt_of_lt_of_le ha hs.nacts_le, ?_, ?_, ?_, ?_⟩
      · rw [hkeep a hab ha, hs.key_eq.1]; exact hk
      · rw [hkeep a hab ha]; exact hca
      · rw [hkeep a hab ha]; exact Or.inl hwa
      · intro h0
        rw [h31] at h0
        simp at h0
    · obtain ⟨a, ha, hk, hca, hwa, hrel⟩ := h.waiter b ht (Or.inl hw)
      have hab : a ≠ b := by
        intro h0; subst h0
        exact (Frame.not_waits_of_reg hwa).1 hw
      refine ⟨a, lt_of_lt_of_le ha hs.nacts_le, ?_, ?_, ?_, ?_⟩
      · rw [hkeep a hab ha, hs.key_eq.1]; exact hk
      · rw [hkeep a hab ha, hc]; exact hca
      · rw [hkeep a hab ha]; exact hwa
      · intro h0
        rw [hkeep a hab ha]
        rcases hr h0 with h1 | h1
        · exact hrel (Or.inl h1)
        · by_contra hn
          have hw1 : (s.acts a).pc.window := by
            rcases hwa with h2 | h2
            · exact h2
            · exact absurd h2 hn
          have := h.wg_armed a ha (Frame.armed_of_window hw1 hn)
          rw [hca, h1] at this
          simp at this
  · rcases hs.other hbt hb with ⟨hb1, hb2⟩ | ⟨_, k, f, hb2⟩
    · rw [hb2] at hh ⊢
      obtain ⟨a, ha, hk, hca, hwa, hrel⟩ := h.waiter b hb1 hh
      by_cases hat : a = t
      · subst hat
        obtain ⟨h1, h2, h3⟩ := h.stay_step ht hs hwa
        exact ⟨a, lt_of_lt_of_le ha hs.nacts_le, by rw [hs.key_eq.1]; exact hk,
          by rw [h1]; exact hca, h2, fun h0 => h3 (hrel h0)⟩
      · refine ⟨a, lt_of_lt_of_le ha hs.nacts_le, ?_, ?_, ?_, ?_⟩
        · rw [hkeep a hat ha]; exact hk
        · rw [hkeep a hat ha]; exact hca
        · rw [hkeep a hat ha]; exact hwa
        · rw [hkeep a hat ha]; exact hrel
    · rw [hb2] at hh
      simp [Pc.waits, Frame.doneWait] at hh

/-- Every statement of `Do` preserves the invariant. -/
theorem Inv.step_ok {s s' : State W} {t : Nat} (h : Inv s) (hs : step s t = some s') : Inv s' :=
  have ht := step_lt hs
  have htr := Trans.of_step hs
  { lock_of_holds := h.lock_of_holds_step ht htr
    holds_of_lock := h.holds_of_lock_step ht htr
    map_made := h.map_made_step ht htr
    ok_exec := h.ok_exec_step ht htr
    ok_wait := h.ok_wait_step ht htr
    fresh := h.fresh_step ht htr
    alloc := h.alloc_step ht htr
    uniq := h.uniq_step ht htr
    reg := h.reg_step ht htr
    reg_owner := h.reg_owner_step ht htr
    wg_armed := h.wg_armed_step ht htr
    wg_zero := h.wg_zero_step ht htr
    published := h.published_step ht htr
    result_exec := h.result_exec_step ht htr
    result_wait := h.result_wait_step ht htr
    calls_one := h.calls_one_step ht htr
    calls_zero := h.calls_zero_step ht htr
    waiter := h.waiter_step ht htr }

theorem startActs_eq (dflt : Fn W) (calls : List (String × Fn W)) (a : Nat) :
    ∃ k f, startActs dflt calls a = Frame.start k f := by
  unfold startActs
  split
  · exact ⟨_, _, rfl⟩
  · exact ⟨_, _, rfl⟩

/-- The initial configurations satisfy the invariant. -/
theorem Inv.holds_at_start (w : W) (calls : List (String × Fn W)) : Inv (start w calls) := by
  have hpc : ∀ a, ((Singleflight.start w calls).acts a).pc = .l26 := by
    intro a
    obtain ⟨k, f, hk⟩ := startActs_eq (.prim fun x => (.panic, x)) calls a
    simp [Singleflight.start, hk]
  have hcalls : ∀ a, ((Singleflight.start w calls).acts a).calls = 0 := by
    intro a
    obtain ⟨k, f, hk⟩ := startActs_eq (.prim fun x => (.panic, x)) calls a
    simp [Singleflight.start, hk]
  have hmu : (Singleflight.start w calls).g.mu = none := rfl
  have hm : (Singleflight.start w calls).g.m = none := rfl
  constructor
  all_goals
    intro a
    simp [hpc, hcalls, hmu, hm, Group.lookup, Pc.holds, Pc.exec, Pc.waits, Pc.window, Pc.armed,
      Pc.called, Frame.owner, Frame.released, Frame.doneExec, Frame.doneWait, Pc.after]

theorem Inv.run_ok {s : State W} (h : Inv s) (sched : List Nat) : Inv (run s sched) := by
  induction sched generalizing s with
  | nil => exact h
  | cons a rest ih =>
    unfold Singleflight.run
    cases hs : Singleflight.step s a with
    | none => exact ih h
    | some s1 => exact ih (h.step_ok hs)

/-- Reachable configurations satisfy the invariant. -/
theorem Reachable.inv {s : State W} (h : Reachable s) : Inv s := by
  obtain ⟨w, calls, sched, rfl⟩ := h
  exact (Inv.holds_at_start w calls).run_ok sched

theorem run_append (s : State W) (xs ys : List Nat) :
    run s (xs ++ ys) = run (run s xs) ys := by
  induction xs generalizing s with
  | nil => rfl
  | cons a rest ih => simp [Singleflight.run, ih]

theorem Reachable.extend {s : State W} (h : Reachable s) (sched : List Nat) :
    Reachable (run s sched) := by
  obtain ⟨w, calls, xs, rfl⟩ := h
  exact ⟨w, calls, xs ++ sched, (run_append _ _ _).symm⟩

theorem Reachable.next {s s' : State W} {t : Nat} (h : Reachable s) (hs : step s t = some s') :
    Reachable s' := by
  have := h.extend [t]
  simpa [Singleflight.run, hs] using this

/-! ## Consequences of the invariant -/

theorem step_other {s s' : State W} {t b : Nat} (hs : step s t = some s') (hbt : b ≠ t)
    (hb : b < s.nacts) : s'.acts b = s.acts b := by
  rcases (Trans.of_step hs).other hbt (lt_of_lt_of_le hb (Trans.of_step hs).nacts_le) with
    ⟨_, h2⟩ | ⟨h1, _⟩
  · exact h2
  · omega

theorem step_nacts_le {s s' : State W} {t : Nat} (hs : step s t = some s') :
    s.nacts ≤ s'.nacts := (Trans.of_step hs).nacts_le

/-- A caller that returned or panicked never moves again, and nobody else
touches its frame. -/
theorem step_frozen {s s' : State W} {t b : Nat} (hs : step s t = some s') (hb : b < s.nacts)
    (hpc : (s.acts b).pc = .done ∨ (s.acts b).pc = .panicked) : s'.acts b = s.acts b := by
  by_cases hbt : b = t
  · subst hbt
    have htr := Trans.of_step hs
    cases htr <;> simp_all
  · exact step_other hs hbt hb

theorem run_nacts_le (s : State W) (sched : List Nat) : s.nacts ≤ (run s sched).nacts := by
  induction sched generalizing s with
  | nil => exact le_refl _
  | cons a rest ih =>
    unfold run
    cases hs : step s a with
    | none => exact ih s
    | some s1 => exact le_trans (step_nacts_le hs) (ih s1)

theorem run_frozen (s : State W) (sched : List Nat) (b : Nat) (hb : b < s.nacts)
    (hpc : (s.acts b).pc = .done ∨ (s.acts b).pc = .panicked) :
    (run s sched).acts b = s.acts b := by
  induction sched generalizing s with
  | nil => rfl
  | cons a rest ih =>
    unfold run
    cases hs : step s a with
    | none => exact ih s hb hpc
    | some s1 =>
      have h1 := step_frozen hs hb hpc
      simp only [Option.getD_some]
      rw [ih s1 (lt_of_lt_of_le hb (step_nacts_le hs)) (by rw [h1]; exact hpc), h1]

/-- Two distinct callers with the same key are never both between line 35
and the deletion on line 44. -/
theorem first_unique {s : State W} (h : Inv s) (a b : Nat)
    (ha : a < s.nacts) (hb : b < s.nacts) (hab : a ≠ b)
    (hk : (s.acts a).key = (s.acts b).key) :
    ¬ ((s.acts a).pc.first ∧ (s.acts b).pc.first) := by
  have hold : ∀ x, x < s.nacts →
      ((s.acts x).pc = .l35 ∨ (s.acts x).pc = .l36 ∨ (s.acts x).pc = .l37) →
      s.g.mu = some x := by
    intro x hx hp
    exact h.lock_of_holds x hx (by unfold Pc.holds; tauto)
  rintro ⟨h1, h2⟩
  unfold Pc.first at h1 h2
  have c1 : ∀ x y, x < s.nacts → y < s.nacts → (s.acts x).key = (s.acts y).key →
      ((s.acts x).pc = .l35 ∨ (s.acts x).pc = .l36 ∨ (s.acts x).pc = .l37) →
      (s.acts y).pc.window → False := by
    intro x y hx hy hxy hp hw
    have e1 := h.fresh x hx hp
    have e2 := h.reg y hy hw
    rw [hxy, e2] at e1
    simp at e1
  by_cases p1 : (s.acts a).pc.window
  · by_cases p2 : (s.acts b).pc.window
    · have e1 := h.reg a ha p1
      have e2 := h.reg b hb p2
      rw [hk, e2] at e1
      exact hab (h.uniq a b ha hb (owner_of_window p1) (owner_of_window p2) (Option.some.inj e1).symm)
    · exact c1 b a hb ha hk.symm (by tauto) p1
  · by_cases p2 : (s.acts b).pc.window
    · exact c1 a b ha hb hk (by tauto) p2
    · have e1 := hold a ha (by tauto)
      have e2 := hold b hb (by tauto)
      rw [e1] at e2
      exact hab (Option.some.inj e2)

/-- C2: in every reachable configuration, two distinct callers with the same
key are never both between finding the key unregistered (line 35) and the
deletion of the key (line 44); in particular while one of them is registered,
the other is not at or inside the call of `fn` on line 40. -/
theorem one_execution_per_key (s : State W) (hs : Reachable s) (a b : Nat)
    (ha : a < s.nacts) (hb : b < s.nacts) (hab : a ≠ b)
    (hk : (s.acts a).key = (s.acts b).key) :
    ¬ ((s.acts a).pc.first ∧ (s.acts b).pc.first) ∧
    ((s.acts a).pc.window → (s.acts b).pc ≠ .l40 ∧ (s.acts b).pc ≠ .inFn) := by
  have h1 := first_unique hs.inv a b ha hb hab hk
  refine ⟨h1, fun hw => ⟨fun h0 => h1 ⟨Or.inr (Or.inr (Or.inr hw)), ?_⟩,
    fun h0 => h1 ⟨Or.inr (Or.inr (Or.inr hw)), ?_⟩⟩⟩
  · simp [Pc.first, Pc.window, h0]
  · simp [Pc.first, Pc.window, h0]

theorem Pc.waits_not_called {p : Pc} (h : p.waits) : ¬ p.called := by
  cases p <;> simp_all [Pc.waits, Pc.called]

theorem Pc.waits_ne_done {p : Pc} (h : p.waits) : p ≠ .done := by
  cases p <;> simp_all [Pc.waits]

theorem Pc.window_exec {p : Pc} (h : p.window) : p.exec := by
  cases p <;> simp_all [Pc.window, Pc.exec]

theorem Pc.after_exec {p : Pc} (h : p.after) : p.exec := by
  cases p <;> simp_all [Pc.after, Pc.exec]

theorem Pc.after_called {p : Pc} (h : p.after) : p.called := by
  cases p <;> simp_all [Pc.after, Pc.called]

theorem Pc.window_ne_done {p : Pc} (h : p.window) : p ≠ .done := by
  cases p <;> simp_all [Pc.window]

theorem Pc.after_ne_done {p : Pc} (h : p.after) : p ≠ .done := by
  cases p <;> simp_all [Pc.after]

/-- The statements of the waiting path leave the registry and the number of
invocations of `fn` alone. -/
theorem Trans.waits_keeps {s s' : State W} {t : Nat} (hs : Trans s t s')
    (hp : (s.acts t).pc.waits) :
    s'.g.m = s.g.m ∧ (s'.acts t).calls = (s.acts t).calls := by
  unfold Pc.waits at hp
  cases hs <;> simp only [State.setAct, State.setCall] <;> simp_all

/-- A caller that holds the lock can always execute its next statement, which
either unlocks or brings it closer to its unlock. -/
theorem lock_progress {s : State W} (h : Inv s) (a : Nat) (hmu : s.g.mu = some a) :
    (s.acts a).pc.holds ∧ (s.acts a).pc.rank ≤ 6 ∧ 0 < (s.acts a).pc.rank ∧
    ∃ s', step s a = some s' ∧
      ((s'.g.mu = none ∧ (s.acts a).pc.rank = 1) ∨
        (s'.g.mu = some a ∧ (s'.acts a).pc.rank + 1 = (s.acts a).pc.rank ∨
          s'.g.mu = some a ∧ (s.acts a).pc = .l30 ∧ (s'.acts a).pc = .l31)) := by
  obtain ⟨ha, hh⟩ := h.holds_of_lock a hmu
  have hm := h.map_made a ha
  refine ⟨hh, ?_⟩
  unfold Pc.holds at hh
  rcases hh with hp | hp | hp | hp | hp | hp | hp | hp | hp
  · cases hm0 : s.g.m <;>
      simp [step, ha, hp, hmu, hm0, Pc.rank, State.setAct]
  · cases hl : s.g.lookup (s.acts a).key <;>
      simp [step, ha, hp, hmu, hl, Pc.rank, State.setAct]
  · simp [step, ha, hp, hmu, Pc.rank, State.setAct]
  · simp [step, ha, hp, hmu, Pc.rank, State.setAct, State.setCall]
  · simp [step, ha, hp, hmu, Pc.rank, State.setAct, State.setCall]
  · cases hm0 : s.g.m with
    | none => simp [hp, hm0] at hm
    | some r => simp [step, ha, hp, hmu, hm0, Pc.rank, State.setAct]
  · simp [step, ha, hp, hmu, Pc.rank, State.setAct]
  · cases hm0 : s.g.m <;>
      simp [step, ha, hp, hmu, hm0, Pc.rank, State.setAct]
  · simp [step, ha, hp, hmu, Pc.rank, State.setAct]

theorem run_replicate_succ (s s1 : State W) (a n : Nat) (hs : step s a = some s1) :
    run s (List.replicate (n + 1) a) = run s1 (List.replicate n a) := by
  simp [List.replicate_succ, run, hs]

theorem unlocks_soon {s : State W} (h : Inv s) (a : Nat) (hmu : s.g.mu = some a) (k : Nat)
    (hk : (s.acts a).pc.rank ≤ k) :
    ∃ n, n ≤ k ∧ (run s (List.replicate n a)).g.mu = none ∧
      ∀ i, i < n → (run s (List.replicate i a)).g.mu = some a ∧
        ((run s (List.replicate i a)).acts a).pc.holds := by
  induction k generalizing s with
  | zero =>
    have := (lock_progress h a hmu).2.2.1
    omega
  | succ k ih =>
    obtain ⟨hh, _, hpos, s1, hst, hcase⟩ := lock_progress h a hmu
    rcases hcase with ⟨h1, _⟩ | ⟨h1, h2⟩ | ⟨h1, h2, h3⟩
    · refine ⟨1, by omega, ?_, ?_⟩
      · simpa [run, hst] using h1
      · intro i hi
        have : i = 0 := by omega
        subst this
        exact ⟨by simpa [run] using hmu, by simpa [run] using hh⟩
    all_goals
      have hk1 : (s1.acts a).pc.rank ≤ k := by
        first
          | omega
          | (rw [h3]; rw [h2] at hk; simp [Pc.rank] at hk ⊢; omega)
      obtain ⟨n, hn, hn1, hn2⟩ := ih (h.step_ok hst) h1 hk1
      refine ⟨n + 1, by omega, ?_, ?_⟩
      · rw [run_replicate_succ s s1 a n hst]; exact hn1
      · intro i hi
        cases i with
        | zero => exact ⟨by simpa [run] using hmu, by simpa [run] using hh⟩
        | succ j =>
          rw [run_replicate_succ s s1 a j hst]
          exact hn2 j (by omega)

/-- C10: in every reachable configuration a caller that is about to call
`fn`, is inside `fn()` or is in `c.wg.Wait()` does not hold `g.mu`; and a
caller that holds `g.mu` releases it within its next six statements, all of
which can always be executed and none of which is the call of `fn` or
`Wait`: they are the nil test and the lookup of the map, `new(call)`,
`c.wg.Add(1)`, the map write, the map delete and `Unlock`. -/
theorem lock_never_held_in_fn_or_wait (s : State W) (hs : Reachable s) (a : Nat) :
    ((s.acts a).pc = .l40 ∨ (s.acts a).pc = .inFn ∨ (s.acts a).pc = .l32 → s.g.mu ≠ some a) ∧
    (s.g.mu = some a →
      ∃ n, n ≤ 6 ∧ (run s (List.replicate n a)).g.mu = none ∧
        ∀ i, i < n → (run s (List.replicate i a)).g.mu = some a ∧
          ((run s (List.replicate i a)).acts a).pc.holds ∧
          ((run s (List.replicate i a)).acts a).pc ≠ .l40 ∧
          ((run s (List.replicate i a)).acts a).pc ≠ .inFn ∧
          ((run s (List.replicate i a)).acts a).pc ≠ .l32) := by
  have h := hs.inv
  constructor
  · intro hp hmu
    have hh := (h.holds_of_lock a hmu).2
    unfold Pc.holds at hh
    rcases hp with hp | hp | hp <;> rw [hp] at hh <;> simp at hh
  · intro hmu
    obtain ⟨n, hn, h1, h2⟩ := unlocks_soon h a hmu 6 (lock_progress h a hmu).2.1
    refine ⟨n, hn, h1, fun i hi => ?_⟩
    obtain ⟨e1, e2⟩ := h2 i hi
    refine ⟨e1, e2, ?_, ?_, ?_⟩ <;>
    · intro h0
      rw [h0] at e2
      simp [Pc.holds] at e2

/-- C8 (as the code behaves): when `fn` panicked in a caller, the panic
unwinds `Do`, which has no deferred call: in every later configuration the
`call` of that caller still has its counter at 1 and is still registered
under the key, so every caller waiting on it is blocked in `c.wg.Wait()` and
every later `Do` with the same key finds it on line 30 and goes waiting
instead of calling its function. -/
theorem panic_leaves_call_registered (s : State W) (hs : Reachable s) (a : Nat)
    (ha : a < s.nacts) (hp : (s.acts a).pc = .panicked) (sched : List Nat) :
    ((run s sched).acts a).pc = .panicked ∧
    (run s sched).g.lookup (s.acts a).key = some (s.acts a).c ∧
    ((run s sched).heap (s.acts a).c).wg = 1 ∧
    (∀ b, ((run s sched).acts b).pc = .l32 → ((run s sched).acts b).c = (s.acts a).c →
      step (run s sched) b = none) ∧
    (∀ b s', ((run s sched).acts b).pc = .l30 → ((run s sched).acts b).key = (s.acts a).key →
      step (run s sched) b = some s' →
      (s'.acts b).pc = .l31 ∧ (s'.acts b).c = (s.acts a).c ∧
        (s'.acts b).calls = ((run s sched).acts b).calls) := by
  have hfz := run_frozen s sched a ha (Or.inr hp)
  have h := (hs.extend sched).inv
  have ha1 : a < (run s sched).nacts := lt_of_lt_of_le ha (run_nacts_le s sched)
  have hreg := h.reg a ha1 (by rw [hfz, hp]; simp [Pc.window])
  have hwg := h.wg_armed a ha1 (by rw [hfz, hp]; simp [Pc.armed])
  rw [hfz] at hreg hwg
  refine ⟨by rw [hfz]; exact hp, hreg, hwg, ?_, ?_⟩
  · intro b hb hc
    unfold step
    split_ifs with hlt
    · simp [hb, hc, hwg]
    · rfl
  · intro b s' hb hk hst
    unfold step at hst
    split_ifs at hst with hlt
    simp only [hb, hk, hreg] at hst
    obtain rfl := Option.some.inj hst
    simp [State.setAct]

set_option maxRecDepth 100000 in
/-- C8, counterexample: caller 0 registered `"k"` and its `fn` panicked while
caller 1 was waiting. The counter of the `call` is still 1, the key is still
registered, caller 1 cannot move, and the later caller 2 ends up waiting on
the dead `call` without having called its function. -/
theorem fn_panic_counterexample :
    (panicRun.acts 0).pc = .panicked ∧ (panicRun.heap (panicRun.acts 0).c).wg = 1 ∧
    panicRun.g.lookup "k" = some (panicRun.acts 0).c ∧
    (panicRun.acts 1).pc = .l32 ∧ (step panicRun 1).isNone = true ∧
    ((run panicRun [2, 2, 2, 2, 2, 2, 2, 2]).acts 2).pc = .l32 ∧
    ((run panicRun [2, 2, 2, 2, 2, 2, 2, 2]).acts 2).calls = 0 := by
  decide

/-! ## A call that runs alone -/

theorem solo_seg1 (s : State W) (a : Nat) (ha : a < s.nacts) (hpc : (s.acts a).pc = .l27)
    (hl : s.g.lookup (s.acts a).key = none) :
    run s (List.replicate 2 a) =
      ({ s with g := ⟨s.g.mu, some (s.g.m.getD [])⟩ }).setAct a
        { (s.acts a) with pc := .l35, ok := false } := by
  cases hm : s.g.m with
  | none =>
    simp [List.replicate, run, step, ha, hpc, hm, State.setAct, Group.lookup, Registry.get]
    funext b
    by_cases hb : b = a <;> simp [hb]
  | some r =>
    have hl2 : r.get (s.acts a).key = none := by simpa [Group.lookup, hm] using hl
    simp [List.replicate, run, step, ha, hpc, hm, State.setAct, Group.lookup, hl2]
    constructor
    · cases hg : s.g with
      | mk mu m =>
        rw [hg] at hm
        simp at hm
        simp [hm]
    · funext b
      by_cases hb : b = a <;> simp [hb]

theorem solo_seg2 (s : State W) (a : Nat) (r : Registry) (ha : a < s.nacts)
    (hpc : (s.acts a).pc = .l35) (hmu : s.g.mu = some a) (hm : s.g.m = some r) :
    run s (List.replicate 4 a) =
      (({ s with g := ⟨none, some (r.set (s.acts a).key s.next)⟩, next := s.next + 1 }).setCall
        s.next ⟨1, none, none⟩).setAct a { (s.acts a) with pc := .l40, c := s.next } := by
  simp [List.replicate, run, step, ha, hpc, hmu, hm, State.setAct, State.setCall, call.zero]
  constructor
  · funext d
    by_cases hd : d = s.next <;> simp [hd]
  · funext b
    by_cases hb : b = a <;> simp [hb]

theorem solo_seg3 (s : State W) (a : Nat) (body : W → Outcome × W) (v : Val) (e : GoError)
    (w : W) (ha : a < s.nacts) (hpc : (s.acts a).pc = .l40) (hfn : (s.acts a).fn = .prim body)
    (hb : body s.world = (.ret v e, w)) :
    run s (List.replicate 3 a) =
      (({ s with world := w }).setCall (s.acts a).c
        { (s.heap (s.acts a).c) with val := v, err := e }).setAct a
        { (s.acts a) with pc := .l41, rv := v, re := e, calls := (s.acts a).calls + 1 } := by
  simp [List.replicate, run, step, ha, hpc, hfn, hb, State.setAct, State.setCall]
  funext b
  by_cases hb : b = a <;> simp [hb]

theorem solo_seg4 (s : State W) (a : Nat) (r : Registry) (ha : a < s.nacts)
    (hpc : (s.acts a).pc = .l41) (hmu : s.g.mu = none) (hm : s.g.m = some r)
    (hwg : (s.heap (s.acts a).c).wg = 1) :
    run s (List.replicate 5 a) =
      (({ s with g := ⟨none, some (r.del (s.acts a).key)⟩ }).setCall (s.acts a).c
        { (s.heap (s.acts a).c) with wg := 0 }).setAct a
        { (s.acts a) with
          pc := .done, result := ((s.heap (s.acts a).c).val, (s.heap (s.acts a).c).err) } := by
  simp [List.replicate, run, step, ha, hpc, hmu, hm, hwg, State.setAct, State.setCall]
  funext b
  by_cases hb : b = a <;> simp [hb]

/-- A call `Do(key, fn)` that holds the lock on line 27, with no entry for
`key` in the registry and an `fn` that returns, and then runs alone: the
remaining fourteen statements of the executing path, in closed form. -/
theorem solo_from_lock (s : State W) (a : Nat) (body : W → Outcome × W) (v : Val) (e : GoError)
    (w : W) (ha : a < s.nacts) (hpc : (s.acts a).pc = .l27) (hmu : s.g.mu = some a)
    (hl : s.g.lookup (s.acts a).key = none) (hfn : (s.acts a).fn = .prim body)
    (hb : body s.world = (.ret v e, w)) :
    run s (List.replicate 14 a) =
      (({ s with
          g := ⟨none, some (((s.g.m.getD []).set (s.acts a).key s.next).del (s.acts a).key)⟩,
          next := s.next + 1, world := w }).setCall s.next ⟨0, v, e⟩).setAct a
        { (s.acts a) with
          pc := .done, c := s.next, ok := false, rv := v, re := e,
          calls := (s.acts a).calls + 1, result := (v, e) } := by
  have e14 : List.replicate 14 a = List.replicate 2 a ++ (List.replicate 4 a ++
      (List.replicate 3 a ++ List.replicate 5 a)) := rfl
  rw [e14, run_append, run_append, run_append, solo_seg1 s a ha hpc hl]
  rw [solo_seg2 _ a (s.g.m.getD []) (by simpa [State.setAct] using ha) (by simp [State.setAct])
    (by simpa [State.setAct] using hmu) (by simp [State.setAct])]
  rw [solo_seg3 _ a body v e w (by simpa [State.setAct, State.setCall] using ha)
    (by simp [State.setAct]) (by simpa [State.setAct] using hfn)
    (by simpa [State.setAct, State.setCall] using hb)]
  rw [solo_seg4 _ a ((s.g.m.getD []).set (s.acts a).key s.next)
    (by simpa [State.setAct, State.setCall] using ha) (by simp [State.setAct])
    (by simp [State.setAct, State.setCall]) (by simp [State.setAct, State.setCall])
    (by simp [State.setAct, State.setCall])]
  simp [State.setAct, State.setCall]
  constructor
  · funext d
    by_cases hd : d = s.next <;> simp [hd]
  · funext b
    by_cases hb : b = a <;> simp [hb]

/-- A call `Do(key, fn)` that runs alone from its entry, on a group whose lock
is free and whose registry has no entry for `key`, with an `fn` that returns:
the fifteen statements of the executing path, in closed form. -/
theorem solo_run (s : State W) (a : Nat) (body : W → Outcome × W) (v : Val) (e : GoError)
    (w : W) (ha : a < s.nacts) (hpc : (s.acts a).pc = .l26) (hmu : s.g.mu = none)
    (hl : s.g.lookup (s.acts a).key = none) (hfn : (s.acts a).fn = .prim body)
    (hb : body s.world = (.ret v e, w)) :
    run s (List.replicate 15 a) =
      (({ s with
          g := ⟨none, some (((s.g.m.getD []).set (s.acts a).key s.next).del (s.acts a).key)⟩,
          next := s.next + 1, world := w }).setCall s.next ⟨0, v, e⟩).setAct a
        { (s.acts a) with
          pc := .done, c := s.next, ok := false, rv := v, re := e,
          calls := (s.acts a).calls + 1, result := (v, e) } := by
  have hst : step s a = some (({ s with g := { s.g with mu := some a } }).setAct a
      { (s.acts a) with pc := .l27 }) := by
    simp [step, ha, hpc, hmu]
  rw [run_replicate_succ s _ a 14 hst]
  rw [solo_from_lock _ a body v e w (by simpa [State.setAct] using ha) (by simp [State.setAct])
    (by simp [State.setAct]) (by simpa [State.setAct, Group.lookup] using hl)
    (by simpa [State.setAct] using hfn) (by simpa [State.setAct] using hb)]
  simp [State.setAct, State.setCall]
  funext b
  by_cases hb : b = a <;> simp [hb]

theorem lookup_set_del (r : Registry) (k : String) (c : Nat) (mu : Option Nat) (k' : String) :
    Group.lookup ⟨mu, some ((r.set k c).del k)⟩ k' = if k = k' then none else r.get k' := by
  by_cases h : k = k' <;> simp [Group.lookup, Registry.get_del, Registry.get_set, h]

theorem lookup_getD (g : Group) (k : String) : (g.m.getD []).get k = g.lookup k := by
  cases hg : g.m <;> simp [Group.lookup, hg, Registry.get]

/-- Once a caller has returned through line 47, the `call` it registered is
not in the registry any more, whatever the other callers have done since. -/
theorem done_call_unregistered {s : State W} (h : Inv s) (a : Nat) (ha : a < s.nacts)
    (hd : (s.acts a).doneExec) : s.g.lookup (s.acts a).key ≠ some (s.acts a).c := by
  intro hl
  obtain ⟨b, hb, _, hc, hw⟩ := h.reg_owner _ _ hl
  have hba := h.uniq b a hb ha (owner_of_window hw) (Or.inr hd) hc
  subst hba
  exact Pc.window_ne_done hw hd.1

/-- Only the `delete` on line 44 takes a caller to line 45. -/
theorem l45_from_l44 {s s' : State W} {t : Nat} (hs : Trans s t s')
    (hp : (s'.acts t).pc = .l45) : (s.acts t).pc = .l44 := by
  cases hs <;> simp only [State.setAct, State.setCall] at hp <;> simp_all

theorem Deleted.step_deleted {s s' : State W} {t : Nat} (h : Inv s) (hd : Deleted s)
    (hs : Singleflight.step s t = some s') : Deleted s' := by
  intro a ha hp
  have ht := step_lt hs
  have htr := Trans.of_step hs
  by_cases hat : a = t
  · subst hat
    have h44 := l45_from_l44 htr hp
    rw [h.lookup_step ht htr, htr.key_eq.1]
    simp [h44]
  · rcases htr.other hat ha with ⟨ha0, hfr⟩ | ⟨_, k, f, hfr⟩
    · rw [hfr] at hp ⊢
      have hmu := h.lock_of_holds a ha0 (by simp [Pc.holds, hp])
      have hne : ¬ (s.acts t).pc.holds := by
        intro h0
        have := h.lock_of_holds t ht h0
        rw [hmu] at this
        exact hat (Option.some.inj this)
      have h37 : (s.acts t).pc ≠ .l37 := fun h0 => hne (by simp [Pc.holds, h0])
      have h44 : (s.acts t).pc ≠ .l44 := fun h0 => hne (by simp [Pc.holds, h0])
      rw [h.lookup_step ht htr]
      simp [h37, h44, hd a ha0 hp]
    · rw [hfr] at hp
      simp at hp

theorem Deleted.run_deleted {s : State W} (h : Inv s) (hd : Deleted s) (sched : List Nat) :
    Deleted (run s sched) := by
  induction sched generalizing s with
  | nil => exact hd
  | cons a rest ih =>
    unfold Singleflight.run
    cases hs : Singleflight.step s a with
    | none => exact ih h hd
    | some s1 => exact ih (h.step_ok hs) (hd.step_deleted h hs)

/-- In every reachable configuration, a caller that has executed its `delete`
and still holds the lock finds its key unregistered. -/
theorem Reachable.deleted {s : State W} (h : Reachable s) : Deleted s := by
  obtain ⟨w, calls, sched, rfl⟩ := h
  refine Deleted.run_deleted (Inv.holds_at_start w calls) ?_ sched
  intro a _ hp
  obtain ⟨k, f, hk⟩ := startActs_eq (.prim fun x => (.panic, x)) calls a
  simp [Singleflight.start, hk] at hp

/-- C5, amended: a call `Do(key, fn)` that runs from its entry on a group
whose lock is free and whose registry has no entry for `key` (the map may be
nil), with an `fn` that returns normally, and with no other caller moving,
returns after its fifteen statements; the registry is then a non-nil map
without an entry for `key`, and it is the empty map when the map was nil on
entry. Under every interleaving with other callers, in every reachable
configuration: a caller that has executed its `delete` and still holds the
lock (it is on line 45) finds no `call` registered under its key; and for a
caller that returned through line 47, the registry is a non-nil map, the `call`
this caller had registered is no longer registered under its key, and if some
`call` is registered under the key, it is the `call` of another caller of the
same key, which registered it itself and is between its registration and its
own `delete`. -/
theorem own_call_removed_after_Do (s : State W) (a : Nat) (body : W → Outcome × W) (v : Val)
    (e : GoError) (w : W) (ha : a < s.nacts) (hpc : (s.acts a).pc = .l26)
    (hmu : s.g.mu = none) (hl : s.g.lookup (s.acts a).key = none)
    (hfn : (s.acts a).fn = .prim body) (hb : body s.world = (.ret v e, w)) :
    ((run s (List.replicate 15 a)).acts a).pc = .done ∧
    ((run s (List.replicate 15 a)).acts a).ok = false ∧
    (run s (List.replicate 15 a)).g.lookup (s.acts a).key = none ∧
    (run s (List.replicate 15 a)).g.m ≠ none ∧
    (s.g.m = none → (run s (List.replicate 15 a)).g.m = some []) ∧
    (∀ (s2 : State W) (b : Nat), Reachable s2 → b < s2.nacts → (s2.acts b).pc = .l45 →
      s2.g.mu = some b ∧ s2.g.lookup (s2.acts b).key = none) ∧
    (∀ (s2 : State W) (b : Nat), Reachable s2 → b < s2.nacts → (s2.acts b).pc = .done →
      (s2.acts b).ok = false →
      s2.g.m ≠ none ∧ s2.g.lookup (s2.acts b).key ≠ some (s2.acts b).c ∧
      ∀ c, s2.g.lookup (s2.acts b).key = some c →
        ∃ d, d < s2.nacts ∧ d ≠ b ∧ (s2.acts d).key = (s2.acts b).key ∧ (s2.acts d).c = c ∧
          (s2.acts d).ok = false ∧ (s2.acts d).pc.window) := by
  rw [solo_run s a body v e w ha hpc hmu hl hfn hb]
  refine ⟨by simp [State.setAct], by simp [State.setAct], ?_, by simp [State.setAct, State.setCall],
    ?_, ?_, ?_⟩
  · simp only [State.setAct, State.setCall]
    rw [lookup_set_del]
    simp
  · intro hm
    simp [State.setAct, State.setCall, hm, Registry.set, Registry.del]
  · intro s2 b hr hb2 hp
    exact ⟨hr.inv.lock_of_holds b hb2 (by simp [Pc.holds, hp]), hr.deleted b hb2 hp⟩
  · intro s2 b hr hb2 hd hok
    have h2 := hr.inv
    refine ⟨h2.map_made b hb2 (by simp [hd]) (by simp [hd]),
      done_call_unregistered h2 b hb2 ⟨hd, hok⟩, ?_⟩
    intro c hc
    obtain ⟨d, hd2, hk, hcd, hwd⟩ := h2.reg_owner _ _ hc
    refine ⟨d, hd2, ?_, hk, hcd, h2.ok_exec d hd2 (Or.inr (Pc.window_exec hwd)), hwd⟩
    intro h0
    subst h0
    exact Pc.window_ne_done hwd hd

/-- C6: two calls `Do(key, fn1)` and `Do(key, fn2)` on the same key, the
second starting after the first has returned and nobody else moving: both
return, each has invoked its own function once, and the second returns the
pair that `fn2` returned on the state left by `fn1`, not the result of the
first call. -/
theorem sequential_calls_both_execute (s : State W) (a b : Nat) (b1 b2 : W → Outcome × W)
    (v1 v2 : Val) (e1 e2 : GoError) (w1 w2 : W) (hab : a ≠ b) (ha : a < s.nacts)
    (hb : b < s.nacts) (hpa : (s.acts a).pc = .l26) (hpb : (s.acts b).pc = .l26)
    (hk : (s.acts b).key = (s.acts a).key) (hmu : s.g.mu = none)
    (hl : s.g.lookup (s.acts a).key = none) (hfa : (s.acts a).fn = .prim b1)
    (hfb : (s.acts b).fn = .prim b2) (h1 : b1 s.world = (.ret v1 e1, w1))
    (h2 : b2 w1 = (.ret v2 e2, w2)) :
    ((run s (List.replicate 15 a)).acts a).pc = .done ∧
    ((run s (List.replicate 15 a)).acts b).pc = .l26 ∧
    ((run s (List.replicate 15 a ++ List.replicate 15 b)).acts a).pc = .done ∧
    ((run s (List.replicate 15 a ++ List.replicate 15 b)).acts b).pc = .done ∧
    ((run s (List.replicate 15 a ++ List.replicate 15 b)).acts a).calls = (s.acts a).calls + 1 ∧
    ((run s (List.replicate 15 a ++ List.replicate 15 b)).acts b).calls = (s.acts b).calls + 1 ∧
    ((run s (List.replicate 15 a ++ List.replicate 15 b)).acts a).result = (v1, e1) ∧
    ((run s (List.replicate 15 a ++ List.replicate 15 b)).acts b).result = (v2, e2) ∧
    (run s (List.replicate 15 a ++ List.replicate 15 b)).world = w2 := by
  have hba : b ≠ a := fun h => hab h.symm
  have e1' := solo_run s a b1 v1 e1 w1 ha hpa hmu hl hfa h1
  rw [run_append, e1']
  have hl1 : Group.lookup ⟨none, some (((s.g.m.getD []).set (s.acts a).key s.next).del
      (s.acts a).key)⟩ (s.acts a).key = none := by
    rw [lookup_set_del]; simp
  rw [solo_run _ b b2 v2 e2 w2 (by simpa [State.setAct, State.setCall] using hb)
    (by simpa [State.setAct, hba] using hpb) (by simp [State.setAct, State.setCall])
    (by simpa [State.setAct, State.setCall, hba, hk] using hl1)
    (by simpa [State.setAct, hba] using hfb) (by simpa [State.setAct, State.setCall] using h2)]
  simp [State.setAct, State.setCall, hab, hba, hpb]

/-- C7: a call `Do(key, fn)` that runs from its entry while a `call` `c'` is
registered under another key `k'`, in flight or completed, and none under
`key`: it does not wait, it returns after its fifteen statements having
invoked its own `fn` once, with the pair `fn` returned; the entry of `k'`
and its `call` record, every entry under a key other than `key`, and every
other caller are left unchanged. And in every reachable configuration a
statement of a caller leaves the entries of all keys other than its own
unchanged. -/
theorem distinct_keys_isolated (s : State W) (a : Nat) (body : W → Outcome × W) (v : Val)
    (e : GoError) (w : W) (k' : String) (c' : Nat) (ha : a < s.nacts)
    (hpc : (s.acts a).pc = .l26) (hmu : s.g.mu = none)
    (hl : s.g.lookup (s.acts a).key = none) (hfn : (s.acts a).fn = .prim body)
    (hb : body s.world = (.ret v e, w)) (hk : k' ≠ (s.acts a).key)
    (hreg : s.g.lookup k' = some c') (hc : c' < s.next) :
    ((run s (List.replicate 15 a)).acts a).pc = .done ∧
    ((run s (List.replicate 15 a)).acts a).calls = (s.acts a).calls + 1 ∧
    ((run s (List.replicate 15 a)).acts a).result = (v, e) ∧
    (run s (List.replicate 15 a)).g.lookup k' = some c' ∧
    (run s (List.replicate 15 a)).heap c' = s.heap c' ∧
    (∀ k, k ≠ (s.acts a).key → (run s (List.replicate 15 a)).g.lookup k = s.g.lookup k) ∧
    (∀ b, b ≠ a → (run s (List.replicate 15 a)).acts b = s.acts b) ∧
    (∀ (s2 s3 : State W) (t : Nat) (k : String), Reachable s2 → step s2 t = some s3 →
      k ≠ (s2.acts t).key → s3.g.lookup k = s2.g.lookup k) := by
  rw [solo_run s a body v e w ha hpc hmu hl hfn hb]
  have hother : ∀ k, k ≠ (s.acts a).key →
      Group.lookup ⟨none, some (((s.g.m.getD []).set (s.acts a).key s.next).del
        (s.acts a).key)⟩ k = s.g.lookup k := by
    intro k hk0
    rw [lookup_set_del, if_neg (fun h => hk0 h.symm), lookup_getD]
  refine ⟨by simp [State.setAct], by simp [State.setAct], by simp [State.setAct], ?_, ?_, ?_, ?_,
    ?_⟩
  rotate_right
  · intro s2 s3 t k hr hst hkt
    rw [hr.inv.lookup_step (step_lt hst) (Trans.of_step hst) k]
    have h1 : ¬ ((s2.acts t).pc = .l37 ∧ (s2.acts t).key = k) := fun h0 => hkt h0.2.symm
    have h2 : ¬ ((s2.acts t).pc = .l44 ∧ (s2.acts t).key = k) := fun h0 => hkt h0.2.symm
    rw [if_neg h1, if_neg h2]
  · simp only [State.setAct, State.setCall]
    rw [hother k' hk]; exact hreg
  · have : c' ≠ s.next := by omega
    simp [State.setAct, State.setCall, this]
  · intro k hk0
    simp only [State.setAct, State.setCall]
    exact hother k hk0
  · intro b hba
    simp [State.setAct, State.setCall, hba]

/-! ## The executing path under arbitrary interleavings -/

theorem beforeFn_step_self {s s' : State W} {a : Nat} (h : Inv s) (ha : a < s.nacts)
    (hpre : beforeFn s a) (hs : Trans s a s') :
    beforeFn s' a ∨ (s'.acts a).pc = .panicked ∨
      ((s.acts a).pc = .inFn ∧ ∃ v e, fnOutcome s a = some (.ret v e) ∧ afterFn s' a v e) := by
  have h1t := h.lock_of_holds a ha
  have hmt := h.map_made a ha
  have hwt := h.wg_armed a ha
  clear h
  unfold beforeFn at hpre ⊢
  unfold afterFn fnOutcome
  cases hs <;> simp only [State.setAct, State.setCall] <;>
    simp_all [Pc.holds, Pc.armed, Group.lookup, Registry.get]

theorem afterFn_step_self {s s' : State W} {a : Nat} (h : Inv s) (ha : a < s.nacts)
    (v : Val) (e : GoError) (hpost : afterFn s a v e) (hs : Trans s a s') :
    afterFn s' a v e := by
  have h1t := h.lock_of_holds a ha
  have hmt := h.map_made a ha
  have hwt := h.wg_armed a ha
  have hoe := h.ok_exec a ha
  clear h
  unfold afterFn at hpost ⊢
  unfold Frame.released Pc.after Frame.doneExec at hpost ⊢
  cases hs <;> simp only [State.setAct, State.setCall] <;>
    simp_all [Pc.holds, Pc.armed, Pc.exec]

theorem beforeFn_step_other {s s' : State W} {a t : Nat} (h : Inv s) (ha : a < s.nacts)
    (hat : a ≠ t) (hpre : beforeFn s a) (hs : step s t = some s') : beforeFn s' a := by
  have hfr := step_other hs hat ha
  have ht := step_lt hs
  unfold beforeFn at hpre ⊢
  rw [hfr]
  rcases hpre with ⟨hp, hl⟩ | hp
  · left
    refine ⟨hp, ?_⟩
    rw [h.lookup_step ht (Trans.of_step hs)]
    have hmu := h.lock_of_holds a ha (by unfold Pc.holds; tauto)
    have hne : ¬ (s.acts t).pc.holds := by
      intro h0
      have := h.lock_of_holds t ht h0
      rw [hmu] at this
      exact hat (Option.some.inj this)
    have h37 : (s.acts t).pc ≠ .l37 := fun h0 => hne (by simp [Pc.holds, h0])
    have h44 : (s.acts t).pc ≠ .l44 := fun h0 => hne (by simp [Pc.holds, h0])
    simp [h37, h44, hl]
  · right
    exact hp

theorem afterFn_step {s s' : State W} {a t : Nat} (h : Inv s) (ha : a < s.nacts)
    (v : Val) (e : GoError) (hpost : afterFn s a v e) (hs : step s t = some s') :
    afterFn s' a v e := by
  by_cases hat : a = t
  · subst hat
    exact afterFn_step_self h ha v e hpost (Trans.of_step hs)
  · unfold afterFn at hpost ⊢
    rw [step_other hs hat ha]
    exact hpost

theorem afterFn_run {s : State W} {a : Nat} (h : Inv s) (ha : a < s.nacts)
    (v : Val) (e : GoError) (hpost : afterFn s a v e) (sched : List Nat) :
    afterFn (run s sched) a v e := by
  induction sched generalizing s with
  | nil => exact hpost
  | cons t rest ih =>
    unfold run
    cases hs : step s t with
    | none => exact ih h ha hpost
    | some s1 =>
      exact ih (h.step_ok hs) (lt_of_lt_of_le ha (step_nacts_le hs)) (afterFn_step h ha v e hpost hs)

/-- A caller that found its key unregistered is, after any schedule, still
before the return of its `fn`, or it panicked, or its `fn` returned at one
point of the schedule and the caller carries that pair. -/
theorem beforeFn_run {s : State W} {a : Nat} (h : Inv s) (ha : a < s.nacts)
    (hpre : beforeFn s a) (sched : List Nat) :
    beforeFn (run s sched) a ∨ ((run s sched).acts a).pc = .panicked ∨
      ∃ xs ys v e, sched = xs ++ a :: ys ∧ ((run s xs).acts a).pc = .inFn ∧
        fnOutcome (run s xs) a = some (.ret v e) ∧ afterFn (run s sched) a v e := by
  induction sched generalizing s with
  | nil => exact Or.inl hpre
  | cons t rest ih =>
    cases hs : step s t with
    | none =>
      have e0 : run s (t :: rest) = run s rest := by simp [run, hs]
      rw [e0]
      rcases ih h ha hpre with h1 | h1 | ⟨xs, ys, v, e, h1, h2, h3, h4⟩
      · exact Or.inl h1
      · exact Or.inr (Or.inl h1)
      · refine Or.inr (Or.inr ⟨t :: xs, ys, v, e, by simp [h1], ?_, ?_, h4⟩)
        · simpa [run, hs] using h2
        · simpa [run, hs] using h3
    | some s1 =>
      have e0 : run s (t :: rest) = run s1 rest := by simp [run, hs]
      have ha1 : a < s1.nacts := lt_of_lt_of_le ha (step_nacts_le hs)
      have hcont : beforeFn s1 a →
          beforeFn (run s (t :: rest)) a ∨ ((run s (t :: rest)).acts a).pc = .panicked ∨
            ∃ xs ys v e, t :: rest = xs ++ a :: ys ∧ ((run s xs).acts a).pc = .inFn ∧
              fnOutcome (run s xs) a = some (.ret v e) ∧ afterFn (run s (t :: rest)) a v e := by
        intro hp1
        rw [e0]
        rcases ih (h.step_ok hs) ha1 hp1 with h1 | h1 | ⟨xs, ys, v, e, h1, h2, h3, h4⟩
        · exact Or.inl h1
        · exact Or.inr (Or.inl h1)
        · refine Or.inr (Or.inr ⟨t :: xs, ys, v, e, by simp [h1], ?_, ?_, h4⟩)
          · simpa [run, hs] using h2
          · simpa [run, hs] using h3
      by_cases hat : a = t
      · subst hat
        rcases beforeFn_step_self h ha hpre (Trans.of_step hs) with h1 | h1 | ⟨h1, v, e, h2, h3⟩
        · exact hcont h1
        · right; left
          rw [e0, run_frozen s1 rest a ha1 (Or.inr h1)]
          exact h1
        · right; right
          refine ⟨[], rest, v, e, rfl, by simpa [run] using h1, by simpa [run] using h2, ?_⟩
          rw [e0]
          exact afterFn_run (h.step_ok hs) ha1 v e h3 rest
      · exact hcont (beforeFn_step_other h ha hat hpre hs)

/-! ## Re-entrant calls -/

theorem child_spawn {s s' : State W} {t : Nat} (ht : t < s.nacts) (hs : Trans s t s')
    (hpc : (s'.acts t).pc = .inFn) (k : String) (inner : Fn W)
    (hfn : (s'.acts t).fn = .nested k inner) :
    ((s.acts t).pc = .l40 ∧ (s'.acts t).child = s.nacts ∧ s'.nacts = s.nacts + 1 ∧
      (s'.acts s.nacts).key = k ∧ (s'.acts s.nacts).pc = .l26) := by
  have hne : s.nacts ≠ t := by omega
  cases hs <;> simp only [State.setAct, State.setCall] at hpc hfn ⊢ <;>
    simp_all

theorem child_move {s s' : State W} {t : Nat} (h : Inv s) (ht : t < s.nacts) (c : Nat)
    (hs : Trans s t s') (hl : s.g.lookup (s.acts t).key = some c) (hwg : (s.heap c).wg = 1)
    (hp : (s.acts t).pc = .l26 ∨ (s.acts t).pc = .l27 ∨ (s.acts t).pc = .l30 ∨
      (((s.acts t).pc = .l31 ∨ (s.acts t).pc = .l32) ∧ (s.acts t).c = c)) :
    (s'.acts t).pc = .l26 ∨ (s'.acts t).pc = .l27 ∨ (s'.acts t).pc = .l30 ∨
      (((s'.acts t).pc = .l31 ∨ (s'.acts t).pc = .l32) ∧ (s'.acts t).c = c) := by
  have h1t := h.lock_of_holds t ht
  clear h
  cases hs <;> simp only [State.setAct, State.setCall] <;> simp_all [Pc.holds]

theorem ChildInv.step_child {s s' : State W} {t : Nat} (h : Inv s) (hc : ChildInv s)
    (hs : step s t = some s') : ChildInv s' := by
  have ht := step_lt hs
  have htr := Trans.of_step hs
  intro a ha hpc k inner hfn
  by_cases hat : a = t
  · subst hat
    obtain ⟨h1, h2, h3, h4, h5⟩ := child_spawn ht htr hpc k inner hfn
    rw [h2]
    refine ⟨by omega, by omega, h4, fun _ => Or.inl h5⟩
  · rcases htr.other hat ha with ⟨ha1, ha2⟩ | ⟨_, k0, f0, ha2⟩
    · rw [ha2] at hpc hfn ⊢
      obtain ⟨hb, hba, hk, hcase⟩ := hc a ha1 hpc k inner hfn
      have hb' : (s.acts a).child < s'.nacts := lt_of_lt_of_le hb htr.nacts_le
      by_cases hbt : (s.acts a).child = t
      · refine ⟨hb', hba, ?_, ?_⟩
        · rw [hbt, htr.key_eq.1, ← hbt]; exact hk
        · intro hka
          have hwin : (s.acts a).pc.window := by simp [Pc.window, hpc]
          have hreg := h.reg a ha1 hwin
          have hwg := h.wg_armed a ha1 (by simp [Pc.armed, hpc])
          have := child_move h ht (s.acts a).c htr
            (by rw [← hbt, hk, hka]; exact hreg) hwg (by rw [← hbt]; exact hcase hka)
          rw [hbt]; exact this
      · rw [step_other hs hbt hb]
        exact ⟨hb', hba, hk, hcase⟩
    · rw [ha2] at hpc
      simp at hpc

theorem ChildInv.start_child (w : W) (calls : List (String × Fn W)) : ChildInv (start w calls) := by
  intro a _ hpc
  obtain ⟨k, f, hk⟩ := startActs_eq (.prim fun x => (.panic, x)) calls a
  simp [Singleflight.start, hk] at hpc

theorem ChildInv.run_child {s : State W} (h : Inv s) (hc : ChildInv s) (sched : List Nat) :
    ChildInv (run s sched) := by
  induction sched generalizing s with
  | nil => exact hc
  | cons a rest ih =>
    unfold Singleflight.run
    cases hs : Singleflight.step s a with
    | none => exact ih h hc
    | some s1 => exact ih (h.step_ok hs) (hc.step_child h hs)

theorem Reachable.childInv {s : State W} (h : Reachable s) : ChildInv s := by
  obtain ⟨w, calls, sched, rfl⟩ := h
  exact (ChildInv.start_child w calls).run_child (Inv.holds_at_start w calls) sched

/-- Inside a re-entrant `fn` on its own key, neither the caller nor its nested
call can return: the caller waits for the nested call, which is on lines 26
to 32 and, once on line 32, waits for the caller. -/
theorem reentrant_stuck {s : State W} (h : Inv s) (hc : ChildInv s) (a : Nat) (ha : a < s.nacts)
    (hpc : (s.acts a).pc = .inFn) (inner : Fn W)
    (hfn : (s.acts a).fn = .nested (s.acts a).key inner) :
    step s a = none ∧
    ((s.acts (s.acts a).child).pc = .l26 ∨ (s.acts (s.acts a).child).pc = .l27 ∨
      (s.acts (s.acts a).child).pc = .l30 ∨ (s.acts (s.acts a).child).pc = .l31 ∨
      (s.acts (s.acts a).child).pc = .l32) ∧
    ((s.acts (s.acts a).child).pc = .l32 →
      (s.acts (s.acts a).child).c = (s.acts a).c ∧ (s.heap (s.acts a).c).wg = 1 ∧
      step s (s.acts a).child = none) := by
  obtain ⟨hb, _, _, hcase⟩ := hc a ha hpc _ inner hfn
  have hcase := hcase rfl
  have hwg := h.wg_armed a ha (by simp [Pc.armed, hpc])
  refine ⟨?_, ?_, ?_⟩
  · rcases hcase with h1 | h1 | h1 | ⟨h1 | h1, _⟩ <;> simp [step, ha, hpc, hfn, h1]
  · tauto
  · intro h32
    rcases hcase with h1 | h1 | h1 | ⟨_, h2⟩
    · rw [h32] at h1; simp at h1
    · rw [h32] at h1; simp at h1
    · rw [h32] at h1; simp at h1
    · refine ⟨h2, hwg, ?_⟩
      simp [step, hb, h32, h2, hwg]

theorem reentrant_run {s : State W} (hs : Reachable s) (a : Nat) (ha : a < s.nacts)
    (inner : Fn W) (hfn : (s.acts a).fn = .nested (s.acts a).key inner)
    (hpc : (s.acts a).pc = .l40 ∨ (s.acts a).pc = .inFn) (sched : List Nat) :
    a < (run s sched).nacts ∧
    ((run s sched).acts a).fn = .nested ((run s sched).acts a).key inner ∧
    (((run s sched).acts a).pc = .l40 ∨ ((run s sched).acts a).pc = .inFn) := by
  induction sched generalizing s with
  | nil => exact ⟨ha, hfn, hpc⟩
  | cons t rest ih =>
    cases hst : step s t with
    | none =>
      have e0 : run s (t :: rest) = run s rest := by simp [run, hst]
      rw [e0]
      exact ih hs ha hfn hpc
    | some s1 =>
      have e0 : run s (t :: rest) = run s1 rest := by simp [run, hst]
      rw [e0]
      have ha1 : a < s1.nacts := lt_of_lt_of_le ha (step_nacts_le hst)
      by_cases hat : a = t
      · subst hat
        have htr := Trans.of_step hst
        rcases hpc with hpc | hpc
        · have hk := htr.key_eq
          have hp1 : (s1.acts a).pc = .inFn := by
            clear ih hk
            cases htr <;> simp_all [State.setAct]
          exact ih (hs.next hst) ha1 (by rw [hk.2, hk.1]; exact hfn) (Or.inr hp1)
        · have := (reentrant_stuck hs.inv hs.childInv a ha hpc inner hfn).1
          rw [this] at hst
          simp at hst
      · have hfr := step_other hst hat ha
        exact ih (hs.next hst) ha1 (by rw [hfr]; exact hfn) (by rw [hfr]; exact hpc)

/-- C9: a caller about to call an `fn` that calls `Do` again with the
caller's own key on the same group. Run alone with the lock free, the nested
call takes the lock, finds the `call` of the outer caller registered, unlocks
and reaches `c.wg.Wait()` on that `call`, whose counter is 1: then neither the
outer caller nor the nested call can move. And under every schedule of all
callers the outer caller never gets past `fn()` and the nested call never gets
past `c.wg.Wait()`: neither returns. -/
theorem reentrant_Do_deadlocks (s : State W) (hs : Reachable s) (a : Nat) (ha : a < s.nacts)
    (hpc : (s.acts a).pc = .l40) (inner : Fn W)
    (hfn : (s.acts a).fn = .nested (s.acts a).key inner) :
    (s.g.mu = none →
      ((run s [a, s.nacts, s.nacts, s.nacts, s.nacts]).acts a).pc = .inFn ∧
      ((run s [a, s.nacts, s.nacts, s.nacts, s.nacts]).acts s.nacts).pc = .l32 ∧
      ((run s [a, s.nacts, s.nacts, s.nacts, s.nacts]).acts s.nacts).c = (s.acts a).c ∧
      ((run s [a, s.nacts, s.nacts, s.nacts, s.nacts]).heap (s.acts a).c).wg = 1 ∧
      step (run s [a, s.nacts, s.nacts, s.nacts, s.nacts]) a = none ∧
      step (run s [a, s.nacts, s.nacts, s.nacts, s.nacts]) s.nacts = none) ∧
    (∀ sched,
      ((run s sched).acts a).pc = .l40 ∨
      (((run s sched).acts a).pc = .inFn ∧ step (run s sched) a = none ∧
        (((run s sched).acts ((run s sched).acts a).child).pc = .l26 ∨
          ((run s sched).acts ((run s sched).acts a).child).pc = .l27 ∨
          ((run s sched).acts ((run s sched).acts a).child).pc = .l30 ∨
          ((run s sched).acts ((run s sched).acts a).child).pc = .l31 ∨
          ((run s sched).acts ((run s sched).acts a).child).pc = .l32) ∧
        (((run s sched).acts ((run s sched).acts a).child).pc = .l32 →
          step (run s sched) ((run s sched).acts a).child = none))) := by
  have h := hs.inv
  constructor
  · intro hmu
    have hne : s.nacts ≠ a := by omega
    have hne2 : a ≠ s.nacts := by omega
    have hreg := h.reg a ha (by simp [Pc.window, hpc])
    have hwg := h.wg_armed a ha (by simp [Pc.armed, hpc])
    have hm := h.map_made a ha (by simp [hpc]) (by simp [hpc])
    cases hm0 : s.g.m with
    | none => exact absurd hm0 hm
    | some r =>
      have hl2 : r.get (s.acts a).key = some (s.acts a).c := by
        simpa [Group.lookup, hm0] using hreg
      simp [run, step, ha, hpc, hfn, hmu, hm0, hl2, hwg, hne, hne2, State.setAct,
        Group.lookup, Frame.start]
  · intro sched
    obtain ⟨ha2, hf2, hp2⟩ := reentrant_run hs a ha inner hfn (Or.inl hpc) sched
    rcases hp2 with hp2 | hp2
    · exact Or.inl hp2
    · right
      obtain ⟨e1, e2, e3⟩ :=
        reentrant_stuck (hs.extend sched).inv (hs.extend sched).childInv a ha2 hp2 inner hf2
      exact ⟨hp2, e1, e2, fun h32 => (e3 h32).2.2⟩

/-! ## Counting the invocations of a shared function -/

theorem countP_range_congr (p q : Nat → Bool) (n : Nat) (h : ∀ i, i < n → p i = q i) :
    (List.range n).countP p = (List.range n).countP q := by
  apply List.countP_congr
  intro i hi
  rw [List.mem_range] at hi
  rw [h i hi]

theorem countP_range_update (p q : Nat → Bool) (n t : Nat) (ht : t < n)
    (h : ∀ i, i < n → i ≠ t → p i = q i) :
    (List.range n).countP p + (if q t then 1 else 0) =
      (List.range n).countP q + (if p t then 1 else 0) := by
  induction n with
  | zero => omega
  | succ n ih =>
    rw [List.range_succ, List.countP_append, List.countP_append]
    simp only [List.countP_cons, List.countP_nil]
    by_cases htn : t = n
    · subst htn
      have := countP_range_congr p q t (fun i hi => h i (by omega) (by omega))
      rw [this]
      omega
    · have := ih (by omega) (fun i hi hne => h i (by omega) hne)
      have hpq := h n (by omega) (fun h0 => htn h0.symm)
      rw [hpq]
      omega

theorem countP_range_le_one (p : Nat → Bool) (n : Nat)
    (h : ∀ i j, i < n → j < n → p i = true → p j = true → i = j) :
    (List.range n).countP p ≤ 1 := by
  induction n with
  | zero => simp
  | succ n ih =>
    rw [List.range_succ, List.countP_append]
    simp only [List.countP_cons, List.countP_nil]
    by_cases hp : p n = true
    · have hz : (List.range n).countP p = 0 := by
        rw [List.countP_eq_zero]
        intro i hi
        rw [List.mem_range] at hi
        intro hpi
        have := h i n (by omega) (by omega) hpi hp
        omega
      rw [hz]
      simp [hp]
    · have := ih (fun i j hi hj => h i j (by omega) (by omega))
      simp [hp]
      exact this

theorem countP_range_pos (p : Nat → Bool) (n i : Nat) (hi : i < n) (hp : p i = true) :
    0 < (List.range n).countP p := by
  rw [List.countP_pos_iff]
  exact ⟨i, List.mem_range.mpr hi, hp⟩

/-- One statement of a caller of `incr`: the caller does not panic, and the
counter grows by one exactly when its `fn` returns. -/
theorem incr_step_local {s s' : State Nat} {t : Nat} (h : Inv s) (ht : t < s.nacts)
    (hfn : (s.acts t).fn = incr) (hs : Trans s t s') :
    s'.nacts = s.nacts ∧ (s'.acts t).pc ≠ .panicked ∧
    (((s'.acts t).returnedFn = (s.acts t).returnedFn ∧ s'.world = s.world) ∨
      ((s.acts t).returnedFn = false ∧ (s'.acts t).returnedFn = true ∧
        s'.world = s.world + 1)) := by
  have h1t := h.lock_of_holds t ht
  have hmt := h.map_made t ht
  have hwt := h.wg_armed t ht
  have hoe := h.ok_exec t ht
  have hot := h.ok_wait t ht
  clear h
  unfold incr at hfn
  cases hs <;> simp only [State.setAct, State.setCall] <;>
    simp_all [Pc.holds, Pc.armed, Pc.exec, Pc.waits, Frame.returnedFn]

theorem CountInv.step_count {N : Nat} {k : String} {w0 : Nat} {s s' : State Nat} {t : Nat}
    (h : Inv s) (hc : CountInv N k w0 s) (hs : step s t = some s') : CountInv N k w0 s' := by
  obtain ⟨hn, hall, hw⟩ := hc
  have ht := step_lt hs
  have htr := Trans.of_step hs
  obtain ⟨hk, hf, hp⟩ := hall t (by omega)
  obtain ⟨e1, e2, e3⟩ := incr_step_local h ht hf htr
  have hcount := countP_range_update (fun a => (s.acts a).returnedFn)
    (fun a => (s'.acts a).returnedFn) s.nacts t ht (fun i hi hne => by
      simp only
      rw [step_other hs hne hi])
  refine ⟨by omega, ?_, ?_⟩
  · intro a ha
    by_cases hat : a = t
    · subst hat
      exact ⟨by rw [htr.key_eq.1]; exact hk, by rw [htr.key_eq.2]; exact hf, e2⟩
    · rw [step_other hs hat (by omega)]
      exact hall a ha
  · unfold execCount at hw ⊢
    rw [e1]
    simp only at hcount
    rcases e3 with ⟨e3, e4⟩ | ⟨e3, e4, e5⟩
    · simp only [e3] at hcount
      omega
    · simp [e3, e4] at hcount
      omega

theorem startActs_replicate (dflt : Fn Nat) (N : Nat) (k : String) (a : Nat) (ha : a < N) :
    startActs dflt (List.replicate N (k, incr)) a = Frame.start k incr := by
  unfold startActs
  rw [List.getElem?_replicate]
  simp [ha]

theorem CountInv.start_count (N : Nat) (k : String) (w0 : Nat) :
    CountInv N k w0 (start w0 (List.replicate N (k, incr))) := by
  refine ⟨by simp [Singleflight.start], ?_, ?_⟩
  · intro a ha
    simp [Singleflight.start, startActs_replicate _ N k a ha]
  · unfold execCount
    have : (List.range (Singleflight.start w0 (List.replicate N (k, incr))).nacts).countP
        (fun a => ((Singleflight.start w0 (List.replicate N (k, incr))).acts a).returnedFn) = 0 := by
      rw [List.countP_eq_zero]
      intro a _
      obtain ⟨k1, f1, hk1⟩ := startActs_eq (.prim fun x => (.panic, x)) (List.replicate N (k, incr)) a
      simp [Singleflight.start, hk1, Frame.returnedFn, Frame.start]
    rw [this]
    simp [Singleflight.start]

theorem CountInv.run_count {N : Nat} {k : String} {w0 : Nat} {s : State Nat} (h : Inv s)
    (hc : CountInv N k w0 s) (sched : List Nat) : CountInv N k w0 (run s sched) := by
  induction sched generalizing s with
  | nil => exact hc
  | cons a rest ih =>
    unfold Singleflight.run
    cases hs : Singleflight.step s a with
    | none => exact ih h hc
    | some s1 => exact ih (h.step_ok hs) (hc.step_count h hs)

theorem lookedUp_step {s s' : State W} {t : Nat} (hs : Trans s t s')
    (hl : (s.acts t).lookedUp) :
    (s'.acts t).ok = (s.acts t).ok ∧ (s'.acts t).lookedUp := by
  unfold Frame.lookedUp at hl ⊢
  cases hs <;> simp only [State.setAct, State.setCall] <;> simp_all

theorem lookedUp_run {s : State W} (a : Nat) (ha : a < s.nacts) (hl : (s.acts a).lookedUp)
    (sched : List Nat) : ((run s sched).acts a).ok = (s.acts a).ok := by
  induction sched generalizing s with
  | nil => rfl
  | cons t rest ih =>
    unfold run
    cases hs : step s t with
    | none => exact ih ha hl
    | some s1 =>
      simp only [Option.getD_some]
      have ha1 : a < s1.nacts := lt_of_lt_of_le ha (step_nacts_le hs)
      by_cases hat : a = t
      · subst hat
        obtain ⟨e1, e2⟩ := lookedUp_step (Trans.of_step hs) hl
        rw [ih ha1 e2, e1]
      · have hfr := step_other hs hat ha
        rw [ih ha1 (by rw [hfr]; exact hl), hfr]

theorem first_of_lookedUp {f : Frame W} (hok : f.pc.waits → f.ok = true)
    (hl : f.lookedUp) (hd : ¬ f.deleted) (hnp : f.pc ≠ .panicked) (ho : f.ok = false) :
    f.pc.first := by
  unfold Frame.lookedUp at hl
  unfold Frame.deleted Frame.doneExec at hd
  unfold Pc.waits at hok
  unfold Pc.first Pc.window
  cases hp : f.pc <;> simp_all

theorem returnedFn_of_released {f : Frame W} (h : f.released) : f.returnedFn = true := by
  unfold Frame.released Pc.after Frame.doneExec at h
  unfold Frame.returnedFn
  rcases h with (h | h | h | h) | ⟨h1, h2⟩ <;> simp_all

/-- C3 (as the code behaves): `N ≥ 1` calls `Do(k, incr)` on a zero-value group,
under a schedule `xs ++ ys` after which all of them have returned. The counter
has increased by at least 1 and at most `N`. It has increased by exactly 1
when, after `xs`, every call had executed its lookup on line 30 and none had
yet executed the deletion on line 44: the calls overlap one execution. -/
theorem incr_invoked_between_once_and_N (N : Nat) (k : String) (w0 : Nat) (xs ys : List Nat)
    (hN : 1 ≤ N)
    (hdone : ∀ a, a < N →
      ((run (start w0 (List.replicate N (k, incr))) (xs ++ ys)).acts a).pc = .done) :
    w0 + 1 ≤ (run (start w0 (List.replicate N (k, incr))) (xs ++ ys)).world ∧
    (run (start w0 (List.replicate N (k, incr))) (xs ++ ys)).world ≤ w0 + N ∧
    ((∀ a, a < N →
        ((run (start w0 (List.replicate N (k, incr))) xs).acts a).lookedUp ∧
        ¬ ((run (start w0 (List.replicate N (k, incr))) xs).acts a).deleted) →
      (run (start w0 (List.replicate N (k, incr))) (xs ++ ys)).world = w0 + 1) := by
  have hr0 : Reachable (start w0 (List.replicate N (k, incr))) := ⟨_, _, [], rfl⟩
  have hr1 := hr0.extend xs
  have hr2 := hr0.extend (xs ++ ys)
  have hc1 := (CountInv.start_count N k w0).run_count hr0.inv xs
  have hc2 := (CountInv.start_count N k w0).run_count hr0.inv (xs ++ ys)
  have h2 := hr2.inv
  obtain ⟨hn2, hall2, hw2⟩ := hc2
  obtain ⟨hn1, hall1, _⟩ := hc1
  have hlow : 0 < execCount (run (start w0 (List.replicate N (k, incr))) (xs ++ ys)) := by
    unfold execCount
    rw [hn2]
    by_cases hok : ((run (start w0 (List.replicate N (k, incr))) (xs ++ ys)).acts 0).ok = false
    · apply countP_range_pos _ N 0 (by omega)
      simp [Frame.returnedFn, hdone 0 (by omega), hok]
    · have hdw : ((run (start w0 (List.replicate N (k, incr))) (xs ++ ys)).acts 0).doneWait :=
        ⟨hdone 0 (by omega), by simpa using hok⟩
      obtain ⟨a, ha, _, _, _, hrel⟩ := h2.waiter 0 (by omega) (Or.inr hdw)
      exact countP_range_pos _ N a (by omega) (returnedFn_of_released (hrel (Or.inr hdw.1)))
  have hup : execCount (run (start w0 (List.replicate N (k, incr))) (xs ++ ys)) ≤ N := by
    unfold execCount
    rw [hn2]
    have : (List.range N).countP (fun a =>
        ((run (start w0 (List.replicate N (k, incr))) (xs ++ ys)).acts a).returnedFn) ≤
        (List.range N).length := List.countP_le_length _
    simpa using this
  refine ⟨by omega, by omega, ?_⟩
  intro hov
  have hone : execCount (run (start w0 (List.replicate N (k, incr))) (xs ++ ys)) ≤ 1 := by
    unfold execCount
    rw [hn2]
    apply countP_range_le_one
    intro i j hi hj hpi hpj
    have hoki : ((run (start w0 (List.replicate N (k, incr))) (xs ++ ys)).acts i).ok = false := by
      simpa [Frame.returnedFn, hdone i hi] using hpi
    have hokj : ((run (start w0 (List.replicate N (k, incr))) (xs ++ ys)).acts j).ok = false := by
      simpa [Frame.returnedFn, hdone j hj] using hpj
    rw [run_append, lookedUp_run i (by omega) (hov i hi).1] at hoki
    rw [run_append, lookedUp_run j (by omega) (hov j hj).1] at hokj
    have hfi := first_of_lookedUp (hr1.inv.ok_wait i (by omega)) (hov i hi).1 (hov i hi).2
      (hall1 i hi).2.2 hoki
    have hfj := first_of_lookedUp (hr1.inv.ok_wait j (by omega)) (hov j hj).1 (hov j hj).2
      (hall1 j hj).2.2 hokj
    by_contra hne
    exact first_unique hr1.inv i j (by omega) (by omega) hne
      (by rw [(hall1 i hi).1, (hall1 j hj).1]) ⟨hfi, hfj⟩
  omega

/-! ## The executing path always makes progress -/

theorem run_replicate_other (s : State W) (t a n : Nat) (hat : a ≠ t) (ha : a < s.nacts) :
    (run s (List.replicate n t)).acts a = s.acts a := by
  induction n generalizing s with
  | zero => rfl
  | succ n ih =>
    cases hs : step s t with
    | none =>
      have e0 : run s (List.replicate (n + 1) t) = run s (List.replicate n t) := by
        simp [List.replicate_succ, run, hs]
      rw [e0]
      exact ih s ha
    | some s1 =>
      rw [run_replicate_succ s s1 t n hs, ih s1 (lt_of_lt_of_le ha (step_nacts_le hs))]
      exact step_other hs hat ha

/-- Before its `fn` is called, a caller on the executing path can always
execute its next statement, whatever the other callers are doing. -/
theorem own_step_before {s : State W} (h : Inv s) (a : Nat) (ha : a < s.nacts)
    (hpre : beforeFn s a) (hne : (s.acts a).pc ≠ .inFn) :
    ∃ s1, step s a = some s1 ∧ (s1.acts a).pc.left + 1 = (s.acts a).pc.left ∧
      7 ≤ (s1.acts a).pc.left := by
  have hm := h.map_made a ha
  have hl := h.lock_of_holds a ha
  unfold beforeFn at hpre
  rcases hpre with ⟨hp | hp, hlk⟩ | hp | hp | hp | hp | hp | hp
  · cases hm0 : s.g.m <;> simp [step, ha, hp, hm0, Pc.left, State.setAct]
  · simp [step, ha, hp, hlk, Pc.left, State.setAct]
  · simp [step, ha, hp, Pc.left, State.setAct, State.setCall]
  · simp [step, ha, hp, Pc.left, State.setAct, State.setCall]
  · cases hm0 : s.g.m with
    | none => simp [hp, hm0] at hm
    | some r => simp [step, ha, hp, hm0, Pc.left, State.setAct]
  · have hmu := hl (by simp [Pc.holds, hp])
    simp [step, ha, hp, hmu, Pc.left, State.setAct]
  · cases hf : (s.acts a).fn with
    | prim body => simp [step, ha, hp, hf, Pc.left, State.setAct]
    | nested k inner =>
      have hne2 : s.nacts ≠ a := by omega
      simp [step, ha, hp, hf, Pc.left, State.setAct, hne2]
  · exact absurd hp hne

/-- After its `fn` returned, a caller can always execute its next statement,
except `Lock` on line 43 while another caller holds the lock. -/
theorem own_step_after {s : State W} (h : Inv s) (a : Nat) (ha : a < s.nacts) (v : Val)
    (e : GoError) (hpost : afterFn s a v e) (hnd : (s.acts a).pc ≠ .done)
    (hfree : (s.acts a).pc = .l43 → s.g.mu = none) :
    ∃ s1, step s a = some s1 ∧ (s1.acts a).pc.left + 1 = (s.acts a).pc.left := by
  have hl := h.lock_of_holds a ha
  have hw := h.wg_armed a ha
  obtain ⟨hp, _, _⟩ := hpost
  unfold Frame.released Pc.after Frame.doneExec at hp
  rcases hp with hp | hp | (hp | hp | hp | hp) | ⟨hp, _⟩
  · simp [step, ha, hp, Pc.left, State.setAct, State.setCall]
  · have hwg := hw (by simp [Pc.armed, hp])
    simp [step, ha, hp, hwg, Pc.left, State.setAct, State.setCall]
  · have hmu := hfree hp
    simp [step, ha, hp, hmu, Pc.left, State.setAct]
  · cases hm0 : s.g.m <;> simp [step, ha, hp, hm0, Pc.left, State.setAct]
  · have hmu := hl (by simp [Pc.holds, hp])
    simp [step, ha, hp, hmu, Pc.left, State.setAct]
  · simp [step, ha, hp, Pc.left, State.setAct]
  · exact absurd hp hnd

/-- A caller on the executing path whose `fn` has not returned yet reaches the
inside of its `fn` by executing its own statements. -/
theorem before_progress {s : State W} (h : Inv s) (a : Nat) (ha : a < s.nacts)
    (hpre : beforeFn s a) (k : Nat) (hk : (s.acts a).pc.left ≤ k + 7) :
    ∃ ys, ((run s ys).acts a).pc = .inFn := by
  induction k generalizing s with
  | zero =>
    by_cases hin : (s.acts a).pc = .inFn
    · exact ⟨[], hin⟩
    · obtain ⟨s1, _, h2, h3⟩ := own_step_before h a ha hpre hin
      omega
  | succ k ih =>
    by_cases hin : (s.acts a).pc = .inFn
    · exact ⟨[], hin⟩
    · obtain ⟨s1, h1, h2, h3⟩ := own_step_before h a ha hpre hin
      have ha1 : a < s1.nacts := lt_of_lt_of_le ha (step_nacts_le h1)
      have hpre1 : beforeFn s1 a := by
        rcases beforeFn_step_self h ha hpre (Trans.of_step h1) with h4 | h4 | h4
        · exact h4
        · rw [h4] at h3
          simp [Pc.left] at h3
        · exact absurd h4.1 hin
      obtain ⟨ys, hys⟩ := ih (h.step_ok h1) ha1 hpre1 (by omega)
      refine ⟨a :: ys, ?_⟩
      have e0 : run s (a :: ys) = run s1 ys := by simp [run, h1]
      rw [e0]
      exact hys

/-- When the call `fn()` of a caller returns a pair, the caller steps out of
`fn` carrying that pair. -/
theorem fn_return_step {s : State W} (a : Nat) (ha : a < s.nacts) (v : Val) (e : GoError)
    (hp : (s.acts a).pc = .inFn) (ho : fnOutcome s a = some (.ret v e)) :
    ∃ s1, step s a = some s1 ∧ afterFn s1 a v e := by
  unfold fnOutcome at ho
  cases hf : (s.acts a).fn with
  | prim body =>
    rw [hf] at ho
    simp only [Option.some.injEq] at ho
    cases hb : body s.world with
    | mk o w =>
      rw [hb] at ho
      simp only at ho
      subst ho
      simp [step, ha, hp, hf, hb, afterFn, State.setAct]
  | nested k inner =>
    rw [hf] at ho
    cases hc : (s.acts (s.acts a).child).pc <;> rw [hc] at ho <;> simp at ho
    obtain ⟨hv, he⟩ := ho
    simp [step, ha, hp, hf, hc, afterFn, State.setAct, hv, he]

/-- After its `fn` returned, a caller that has not returned yet gets one
statement further, after the holder of the lock, if any, has released it. -/
theorem after_one {s : State W} (h : Inv s) (a : Nat) (ha : a < s.nacts) (v : Val)
    (e : GoError) (hpost : afterFn s a v e) (hnd : (s.acts a).pc ≠ .done) :
    ∃ zs, afterFn (run s zs) a v e ∧
      ((run s zs).acts a).pc.left + 1 = (s.acts a).pc.left := by
  by_cases hfree : (s.acts a).pc = .l43 → s.g.mu = none
  · obtain ⟨s1, h1, h2⟩ := own_step_after h a ha v e hpost hnd hfree
    refine ⟨[a], ?_, ?_⟩
    · have e0 : run s [a] = s1 := by simp [run, h1]
      rw [e0]
      exact afterFn_step h ha v e hpost h1
    · have e0 : run s [a] = s1 := by simp [run, h1]
      rw [e0]
      exact h2
  · have h43 : (s.acts a).pc = .l43 := by
      by_contra h0
      exact hfree (fun h1 => absurd h1 h0)
    have hmu : s.g.mu ≠ none := fun h0 => hfree (fun _ => h0)
    obtain ⟨t, ht⟩ := Option.ne_none_iff_exists'.mp hmu
    have hat : a ≠ t := by
      intro h0
      subst h0
      have := (h.holds_of_lock a ht).2
      rw [h43] at this
      simp [Pc.holds] at this
    obtain ⟨n, _, hn, _⟩ := unlocks_soon h t ht 6 (lock_progress h t ht).2.1
    have hfr := run_replicate_other s t a n hat ha
    have h1 := h.run_ok (List.replicate n t)
    have ha1 : a < (run s (List.replicate n t)).nacts :=
      lt_of_lt_of_le ha (run_nacts_le s _)
    have hpost1 : afterFn (run s (List.replicate n t)) a v e := by
      unfold afterFn at hpost ⊢
      rw [hfr]
      exact hpost
    have hnd1 : ((run s (List.replicate n t)).acts a).pc ≠ .done := by
      rw [hfr]
      exact hnd
    obtain ⟨s2, h2, h3⟩ := own_step_after h1 a ha1 v e hpost1 hnd1 (fun _ => hn)
    refine ⟨List.replicate n t ++ [a], ?_, ?_⟩
    · have e0 : run s (List.replicate n t ++ [a]) = s2 := by simp [run_append, run, h2]
      rw [e0]
      exact afterFn_step h1 ha1 v e hpost1 h2
    · have e0 : run s (List.replicate n t ++ [a]) = s2 := by simp [run_append, run, h2]
      rw [e0, h3, hfr]

/-- After its `fn` returned, a caller can always be brought to its return:
every statement left is enabled, except `Lock` on line 43, which is enabled
once the holder of the lock has released it, and the holder always can. -/
theorem after_progress {s : State W} (h : Inv s) (a : Nat) (ha : a < s.nacts) (v : Val)
    (e : GoError) (hpost : afterFn s a v e) (k : Nat) (hk : (s.acts a).pc.left ≤ k) :
    ∃ ys, ((run s ys).acts a).pc = .done := by
  induction k generalizing s with
  | zero =>
    by_cases hd : (s.acts a).pc = .done
    · exact ⟨[], hd⟩
    · obtain ⟨zs, _, h2⟩ := after_one h a ha v e hpost hd
      omega
  | succ k ih =>
    by_cases hd : (s.acts a).pc = .done
    · exact ⟨[], hd⟩
    · obtain ⟨zs, h1, h2⟩ := after_one h a ha v e hpost hd
      obtain ⟨ys, hys⟩ := ih (h.run_ok zs) (lt_of_lt_of_le ha (run_nacts_le s zs)) h1 (by omega)
      refine ⟨zs ++ ys, ?_⟩
      rw [run_append]
      exact hys

/-- A caller that has returned on the executing path after its `fn` returned
`(v, e)` returned `(v, e)` and invoked `fn` once. -/
theorem afterFn_done {s : State W} (h : Inv s) (a : Nat) (ha : a < s.nacts) (v : Val)
    (e : GoError) (hpost : afterFn s a v e) (hd : (s.acts a).pc = .done) :
    (s.acts a).result = (v, e) ∧ (s.acts a).calls = 1 := by
  obtain ⟨hp, hv, he⟩ := hpost
  have hde : (s.acts a).doneExec := by
    rcases hp with hp | hp | hp | hp
    · rw [hd] at hp; simp at hp
    · rw [hd] at hp; simp at hp
    · exact absurd hd (Pc.after_ne_done hp)
    · exact hp
  have hres := h.result_exec a ha hde
  rw [hv, he] at hres
  exact ⟨hres, h.calls_one a ha (Or.inr hde)⟩

/-- Once the call `fn()` of a caller returns a pair, the caller can be brought
to its return, and it returns that pair. -/
theorem returns_after_fn {s : State W} (h : Inv s) (a : Nat) (ha : a < s.nacts) (v : Val)
    (e : GoError) (hp : (s.acts a).pc = .inFn) (ho : fnOutcome s a = some (.ret v e)) :
    ∃ ys, ((run s ys).acts a).pc = .done ∧ ((run s ys).acts a).result = (v, e) ∧
      ((run s ys).acts a).calls = 1 := by
  obtain ⟨s1, h1, h2⟩ := fn_return_step a ha v e hp ho
  have ha1 : a < s1.nacts := lt_of_lt_of_le ha (step_nacts_le h1)
  obtain ⟨ys, hys⟩ := after_progress (h.step_ok h1) a ha1 v e h2 _ (le_refl _)
  refine ⟨a :: ys, ?_⟩
  have e0 : run s (a :: ys) = run s1 ys := by simp [run, h1]
  rw [e0]
  have h3 := afterFn_run (h.step_ok h1) ha1 v e h2 ys
  have h4 := afterFn_done ((h.step_ok h1).run_ok ys) a
    (lt_of_lt_of_le ha1 (run_nacts_le s1 ys)) v e h3 hys
  exact ⟨hys, h4.1, h4.2⟩

/-- The parameter `fn` of a caller never changes. -/
theorem run_fn_eq (s : State W) (sched : List Nat) (a : Nat) (ha : a < s.nacts) :
    ((run s sched).acts a).fn = (s.acts a).fn := by
  induction sched generalizing s with
  | nil => rfl
  | cons t rest ih =>
    cases hs : step s t with
    | none =>
      have e0 : run s (t :: rest) = run s rest := by simp [run, hs]
      rw [e0]
      exact ih s ha
    | some s1 =>
      have e0 : run s (t :: rest) = run s1 rest := by simp [run, hs]
      rw [e0, ih s1 (lt_of_lt_of_le ha (step_nacts_le hs))]
      by_cases hat : a = t
      · subst hat
        have ht := Trans.of_step hs
        cases ht <;> simp only [State.setAct] <;> simp
      · rw [step_other hs hat ha]

/-- With a `fn` that is a plain function and never panics, a statement of a
caller that has not got the result of `fn` yet does not panic. -/
theorem prim_step_live {s s' : State W} {a : Nat} (h : Inv s) (ha : a < s.nacts)
    (body : W → Outcome × W) (hf : (s.acts a).fn = .prim body)
    (hnp : ∀ w, (body w).1 ≠ .panic) (hpre : beforeFn s a) (hs : Trans s a s') :
    (s'.acts a).pc ≠ .panicked := by
  have h1t := h.lock_of_holds a ha
  have hmt := h.map_made a ha
  have hwt := h.wg_armed a ha
  have hnp0 := hnp s.world
  clear h hnp
  unfold beforeFn at hpre
  cases hs <;> simp only [State.setAct, State.setCall] <;>
    simp_all [Pc.holds, Pc.armed, Group.lookup, Registry.get]

/-- With a `fn` that is a plain function and never panics, a caller on the
executing path stays on it: at every point of every schedule it is before the
return of its `fn` or carries the pair its `fn` returned. -/
theorem live_run {s : State W} {a : Nat} (h : Inv s) (ha : a < s.nacts)
    (body : W → Outcome × W) (hf : (s.acts a).fn = .prim body)
    (hnp : ∀ w, (body w).1 ≠ .panic)
    (hlive : beforeFn s a ∨ ∃ v e, afterFn s a v e) (sched : List Nat) :
    beforeFn (run s sched) a ∨ ∃ v e, afterFn (run s sched) a v e := by
  induction sched generalizing s with
  | nil => exact hlive
  | cons t rest ih =>
    cases hs : step s t with
    | none =>
      have e0 : run s (t :: rest) = run s rest := by simp [run, hs]
      rw [e0]
      exact ih h ha hf hlive
    | some s1 =>
      have e0 : run s (t :: rest) = run s1 rest := by simp [run, hs]
      have ha1 : a < s1.nacts := lt_of_lt_of_le ha (step_nacts_le hs)
      have hf1 : (s1.acts a).fn = .prim body := by
        have := run_fn_eq s [t] a ha
        simp only [run, hs, Option.getD_some] at this
        rw [this]
        exact hf
      rw [e0]
      apply ih (h.step_ok hs) ha1 hf1
      rcases hlive with hpre | ⟨v, e, hpost⟩
      · by_cases hat : a = t
        · subst hat
          rcases beforeFn_step_self h ha hpre (Trans.of_step hs) with h1 | h1 | ⟨_, v, e, _, h1⟩
          · exact Or.inl h1
          · exact absurd h1 (prim_step_live h ha body hf hnp hpre (Trans.of_step hs))
          · exact Or.inr ⟨v, e, h1⟩
        · exact Or.inl (beforeFn_step_other h ha hat hpre hs)
      · exact Or.inr ⟨v, e, afterFn_step h ha v e hpost hs⟩

/-- C1: for a caller that has taken the lock (it is on line 27) while no
`call` is registered under its key, whatever its `fn` is and whatever the other
callers of the group do. It has not invoked `fn` yet. (1) If its `fn` is a
plain function that returns `(v, e)`, the caller running alone returns `(v, e)`
after fourteen statements, having invoked `fn` once. (2) At every point of
every schedule at which it has not invoked `fn` yet, the schedule can be
continued so that it invokes `fn`, for the first time. (3) At every point of
every schedule at which the call `fn()` returns a pair `(v, e)`, be `fn` a
plain function or one that calls `Do` on another key, and whichever callers
are parked in `Wait`, the schedule can be continued so that `Do` returns, and
it returns `(v, e)`, having invoked `fn` once; and so can it be at every later
point of every schedule, the caller carrying the pair `(v, e)` that its `fn`
returned. (4) If `fn` is a plain function that never panics, every schedule
can be continued so that `Do` returns. (5) Whenever the caller has returned
after a schedule, it has invoked `fn` exactly once: the schedule splits at one
statement of this caller, executed inside `fn()`, at which `fn` returned a pair
`(v, e)`, and `Do` returned that same pair; in particular the error of `Do` is
`nil` exactly when the error of `fn` is. -/
theorem Do_returns_fn_result (s : State W) (hs : Reachable s) (a : Nat) (ha : a < s.nacts)
    (hpc : (s.acts a).pc = .l27) (hl : s.g.lookup (s.acts a).key = none) :
    (s.acts a).calls = 0 ∧
    (∀ body v e w, (s.acts a).fn = .prim body → body s.world = (.ret v e, w) →
      ((run s (List.replicate 14 a)).acts a).pc = .done ∧
      ((run s (List.replicate 14 a)).acts a).result = (v, e) ∧
      ((run s (List.replicate 14 a)).acts a).calls = 1) ∧
    (∀ xs, ((run s xs).acts a).calls = 0 →
      ∃ ys, ((run s (xs ++ ys)).acts a).pc = .inFn ∧
        ((run s (xs ++ ys)).acts a).calls = 1) ∧
    (∀ xs v e, ((run s xs).acts a).pc = .inFn → fnOutcome (run s xs) a = some (.ret v e) →
      ∃ ys, ((run s (xs ++ ys)).acts a).pc = .done ∧
        ((run s (xs ++ ys)).acts a).result = (v, e) ∧
        ((run s (xs ++ ys)).acts a).calls = 1) ∧
    (∀ xs v e, afterFn (run s xs) a v e →
      ∃ ys, ((run s (xs ++ ys)).acts a).pc = .done ∧
        ((run s (xs ++ ys)).acts a).result = (v, e) ∧
        ((run s (xs ++ ys)).acts a).calls = 1) ∧
    (∀ body, (s.acts a).fn = .prim body → (∀ w, (body w).1 ≠ .panic) →
      ∀ xs, ∃ ys, ((run s (xs ++ ys)).acts a).pc = .done) ∧
    (∀ sched, ((run s sched).acts a).pc = .done →
      ((run s sched).acts a).calls = 1 ∧
      ∃ xs ys v e, sched = xs ++ a :: ys ∧ ((run s xs).acts a).pc = .inFn ∧
        fnOutcome (run s xs) a = some (.ret v e) ∧
        ((run s sched).acts a).result = (v, e) ∧
        ((((run s sched).acts a).result.2 = none) ↔ e = none)) := by
  have h := hs.inv
  have hc0 : (s.acts a).calls = 0 := by
    apply h.calls_zero a ha
    simp [Pc.called, Frame.doneExec, hpc]
  have hpre : beforeFn s a := Or.inl ⟨Or.inl hpc, hl⟩
  refine ⟨hc0, ?_, ?_, ?_, ?_, ?_, ?_⟩
  · intro body v e w hfn hb
    have hmu := h.lock_of_holds a ha (by simp [Pc.holds, hpc])
    rw [solo_from_lock s a body v e w ha hpc hmu hl hfn hb]
    simp [State.setAct, hc0]
  · intro xs hc
    have h1 := h.run_ok xs
    have ha1 : a < (run s xs).nacts := lt_of_lt_of_le ha (run_nacts_le s xs)
    have hpre1 : beforeFn (run s xs) a := by
      rcases beforeFn_run h ha hpre xs with h2 | h2 | ⟨_, _, v, e, _, _, _, h2⟩
      · exact h2
      · have := h1.calls_one a ha1 (Or.inl (by simp [Pc.called, h2]))
        omega
      · have hcl : ((run s xs).acts a).pc.called ∨ ((run s xs).acts a).doneExec := by
          rcases h2.1 with h3 | h3 | h3 | h3
          · exact Or.inl (by simp [Pc.called, h3])
          · exact Or.inl (by simp [Pc.called, h3])
          · exact Or.inl (Pc.after_called h3)
          · exact Or.inr h3
        have := h1.calls_one a ha1 hcl
        omega
    obtain ⟨ys, hys⟩ := before_progress h1 a ha1 hpre1 7 (by
      cases hp : ((run s xs).acts a).pc <;> simp [Pc.left])
    refine ⟨ys, ?_⟩
    rw [run_append]
    refine ⟨hys, ?_⟩
    exact (h1.run_ok ys).calls_one a (lt_of_lt_of_le ha1 (run_nacts_le _ ys))
      (Or.inl (by simp [Pc.called, hys]))
  · intro xs v e hp ho
    have h1 := h.run_ok xs
    have ha1 : a < (run s xs).nacts := lt_of_lt_of_le ha (run_nacts_le s xs)
    obtain ⟨ys, hys⟩ := returns_after_fn h1 a ha1 v e hp ho
    refine ⟨ys, ?_⟩
    rw [run_append]
    exact hys
  · intro xs v e hpost
    have h1 := h.run_ok xs
    have ha1 : a < (run s xs).nacts := lt_of_lt_of_le ha (run_nacts_le s xs)
    obtain ⟨ys, hys⟩ := after_progress h1 a ha1 v e hpost _ (le_refl _)
    have h3 := afterFn_run h1 ha1 v e hpost ys
    have h4 := afterFn_done (h1.run_ok ys) a (lt_of_lt_of_le ha1 (run_nacts_le _ ys)) v e h3 hys
    refine ⟨ys, ?_⟩
    rw [run_append]
    exact ⟨hys, h4.1, h4.2⟩
  · intro body hf hnp xs
    have h1 := h.run_ok xs
    have ha1 : a < (run s xs).nacts := lt_of_lt_of_le ha (run_nacts_le s xs)
    rcases live_run h ha body hf hnp (Or.inl hpre) xs with hpre1 | ⟨v, e, hpost⟩
    · obtain ⟨ys, hys⟩ := before_progress h1 a ha1 hpre1 7 (by
        cases hp : ((run s xs).acts a).pc <;> simp [Pc.left])
      have h2 := h1.run_ok ys
      have ha2 : a < (run (run s xs) ys).nacts := lt_of_lt_of_le ha1 (run_nacts_le _ ys)
      have hf2 : ((run (run s xs) ys).acts a).fn = .prim body := by
        rw [run_fn_eq _ ys a ha1, run_fn_eq s xs a ha]
        exact hf
      have hnp2 := hnp (run (run s xs) ys).world
      cases ho : (body (run (run s xs) ys).world).1 with
      | panic => exact absurd ho hnp2
      | ret v e =>
        have ho2 : fnOutcome (run (run s xs) ys) a = some (.ret v e) := by
          unfold fnOutcome
          rw [hf2]
          simp [ho]
        obtain ⟨zs, hzs, _⟩ := returns_after_fn h2 a ha2 v e hys ho2
        refine ⟨ys ++ zs, ?_⟩
        rw [run_append, run_append]
        exact hzs
    · obtain ⟨ys, hys⟩ := after_progress h1 a ha1 v e hpost _ (le_refl _)
      refine ⟨ys, ?_⟩
      rw [run_append]
      exact hys
  · intro sched hd
    have h2 := (hs.extend sched).inv
    have ha2 : a < (run s sched).nacts := lt_of_lt_of_le ha (run_nacts_le s sched)
    rcases beforeFn_run h ha (Or.inl ⟨Or.inl hpc, hl⟩) sched with
      h1 | h1 | ⟨xs, ys, v, e, h1, h3, h4, h5⟩
    · unfold beforeFn at h1
      rw [hd] at h1
      simp at h1
    · rw [hd] at h1
      simp at h1
    · obtain ⟨hp, hv, he⟩ := h5
      have hde : ((run s sched).acts a).doneExec := by
        rcases hp with hp | hp | hp | hp
        · rw [hd] at hp; simp at hp
        · rw [hd] at hp; simp at hp
        · exact absurd hd (Pc.after_ne_done hp)
        · exact hp
      have hres := h2.result_exec a ha2 hde
      rw [hv, he] at hres
      refine ⟨h2.calls_one a ha2 (Or.inr hde), xs, ys, v, e, h1, h3, h4, hres, ?_⟩
      rw [hres]

/-! ## The waiting path always makes progress -/

/-- The next statement of a caller on the waiting path is enabled as soon as
the counter of its `call` is 0 (`Unlock` and the return always are); it leaves
the heap and the local `c` alone, and the return on line 33 returns the pair
stored in the `call`. -/
theorem waiter_one {s : State W} (h : Inv s) (b : Nat) (hb : b < s.nacts)
    (hw : (s.acts b).pc.waits) (hz : (s.heap (s.acts b).c).wg = 0) :
    ∃ s1, step s b = some s1 ∧ s1.heap = s.heap ∧ (s1.acts b).c = (s.acts b).c ∧
      ((s.acts b).pc = .l31 → (s1.acts b).pc = .l32) ∧
      ((s.acts b).pc = .l32 → (s1.acts b).pc = .l33) ∧
      ((s.acts b).pc = .l33 → (s1.acts b).pc = .done ∧
        (s1.acts b).result = ((s.heap (s.acts b).c).val, (s.heap (s.acts b).c).err)) := by
  have hl := h.lock_of_holds b hb
  unfold Pc.waits at hw
  rcases hw with hp | hp | hp
  · have hmu := hl (by simp [Pc.holds, hp])
    simp [step, hb, hp, hmu, State.setAct]
  · simp [step, hb, hp, hz, State.setAct]
  · simp [step, hb, hp, State.setAct]

/-- A caller on the waiting path whose `call` is completed returns within its
next three statements, with the pair stored in the `call`. -/
theorem waiter_returns {s : State W} (h : Inv s) (b : Nat) (hb : b < s.nacts)
    (hw : (s.acts b).pc.waits ∨ (s.acts b).doneWait)
    (hz : (s.heap (s.acts b).c).wg = 0) :
    ∃ n, n ≤ 3 ∧ ((run s (List.replicate n b)).acts b).pc = .done ∧
      ((run s (List.replicate n b)).acts b).result =
        ((s.heap (s.acts b).c).val, (s.heap (s.acts b).c).err) := by
  have h33 : ∀ s3 : State W, Inv s3 → b < s3.nacts → (s3.acts b).pc = .l33 →
      ∃ n, n ≤ 1 ∧ ((run s3 (List.replicate n b)).acts b).pc = .done ∧
        ((run s3 (List.replicate n b)).acts b).result =
          ((s3.heap (s3.acts b).c).val, (s3.heap (s3.acts b).c).err) := by
    intro s3 i3 hb3 hp
    obtain ⟨s4, h1, _, _, _, _, h2⟩ := waiter_one i3 b hb3 (by simp [Pc.waits, hp]) (by
      have := i3.waiter b hb3 (Or.inl (by simp [Pc.waits, hp]))
      obtain ⟨a, ha, _, hc, _, hr⟩ := this
      rw [← hc]
      exact i3.wg_zero a ha (Or.inr (hr (Or.inl hp))))
    refine ⟨1, le_refl _, ?_⟩
    rw [run_replicate_succ s3 s4 b 0 h1]
    exact h2 hp
  have h32 : ∀ s2 : State W, Inv s2 → b < s2.nacts → (s2.acts b).pc = .l32 →
      (s2.heap (s2.acts b).c).wg = 0 →
      ∃ n, n ≤ 2 ∧ ((run s2 (List.replicate n b)).acts b).pc = .done ∧
        ((run s2 (List.replicate n b)).acts b).result =
          ((s2.heap (s2.acts b).c).val, (s2.heap (s2.acts b).c).err) := by
    intro s2 i2 hb2 hp hz2
    obtain ⟨s3, h1, hh, hc, _, h2, _⟩ := waiter_one i2 b hb2 (by simp [Pc.waits, hp]) hz2
    obtain ⟨n, hn, h3, h4⟩ := h33 s3 (i2.step_ok h1) (lt_of_lt_of_le hb2 (step_nacts_le h1))
      (h2 hp)
    refine ⟨n + 1, by omega, ?_⟩
    rw [run_replicate_succ s2 s3 b n h1, ← hh, ← hc]
    exact ⟨h3, h4⟩
  rcases hw with (hp | hp | hp) | hp
  · obtain ⟨s2, h1, hh, hc, h2, _, _⟩ := waiter_one h b hb (by simp [Pc.waits, hp]) hz
    obtain ⟨n, hn, h3, h4⟩ := h32 s2 (h.step_ok h1) (lt_of_lt_of_le hb (step_nacts_le h1))
      (h2 hp) (by rw [hh, hc]; exact hz)
    refine ⟨n + 1, by omega, ?_⟩
    rw [run_replicate_succ s s2 b n h1, ← hh, ← hc]
    exact ⟨h3, h4⟩
  · obtain ⟨n, hn, h3⟩ := h32 s h hb hp hz
    exact ⟨n, by omega, h3⟩
  · obtain ⟨n, hn, h3⟩ := h33 s h hb hp
    exact ⟨n, by omega, h3⟩
  · exact ⟨0, by omega, hp.1, h.result_wait b hb hp⟩

/-- A statement of a caller on the waiting path keeps it on the waiting path,
or returns through line 33, and keeps its local `c`. -/
theorem waiter_step_self {s s' : State W} {b : Nat} (h : Inv s) (hb : b < s.nacts)
    (hw : (s.acts b).pc.waits) (hs : Trans s b s') :
    ((s'.acts b).pc.waits ∨ (s'.acts b).doneWait) ∧ (s'.acts b).c = (s.acts b).c := by
  have hl := h.lock_of_holds b hb
  have ho := h.ok_wait b hb hw
  clear h
  unfold Pc.waits at hw ⊢
  unfold Frame.doneWait
  cases hs <;> simp only [State.setAct, State.setCall] <;> simp_all [Pc.holds]

/-- Under every schedule a caller on the waiting path stays on it, or has
returned through line 33, with the same `call`. -/
theorem waiter_run {s : State W} (h : Inv s) (b : Nat) (hb : b < s.nacts)
    (hw : (s.acts b).pc.waits ∨ (s.acts b).doneWait) (sched : List Nat) :
    (((run s sched).acts b).pc.waits ∨ ((run s sched).acts b).doneWait) ∧
      ((run s sched).acts b).c = (s.acts b).c := by
  induction sched generalizing s with
  | nil => exact ⟨hw, rfl⟩
  | cons t rest ih =>
    cases hs : step s t with
    | none =>
      have e0 : run s (t :: rest) = run s rest := by simp [run, hs]
      rw [e0]
      exact ih h hb hw
    | some s1 =>
      have e0 : run s (t :: rest) = run s1 rest := by simp [run, hs]
      have hb1 : b < s1.nacts := lt_of_lt_of_le hb (step_nacts_le hs)
      have h1 : ((s1.acts b).pc.waits ∨ (s1.acts b).doneWait) ∧ (s1.acts b).c = (s.acts b).c := by
        rcases hw with hw | hw
        · by_cases hbt : b = t
          · subst hbt
            exact waiter_step_self h hb hw (Trans.of_step hs)
          · rw [step_other hs hbt hb]
            exact ⟨Or.inl hw, rfl⟩
        · rw [step_frozen hs hb (Or.inl hw.1)]
          exact ⟨Or.inr hw, rfl⟩
      rw [e0, ← h1.2]
      exact ih (h.step_ok hs) hb1 h1.1

/-- After its `fn` returned, a caller keeps its local `c`. -/
theorem afterFn_step_c {s s' : State W} {a : Nat} (v : Val) (e : GoError)
    (hpost : afterFn s a v e) (hs : Trans s a s') : (s'.acts a).c = (s.acts a).c := by
  unfold afterFn at hpost
  unfold Frame.released Pc.after Frame.doneExec at hpost
  cases hs <;> simp only [State.setAct, State.setCall] <;> simp_all

theorem afterFn_run_c {s : State W} {a : Nat} (h : Inv s) (ha : a < s.nacts) (v : Val)
    (e : GoError) (hpost : afterFn s a v e) (sched : List Nat) :
    ((run s sched).acts a).c = (s.acts a).c := by
  induction sched generalizing s with
  | nil => rfl
  | cons t rest ih =>
    cases hs : step s t with
    | none =>
      have e0 : run s (t :: rest) = run s rest := by simp [run, hs]
      rw [e0]
      exact ih h ha hpost
    | some s1 =>
      have e0 : run s (t :: rest) = run s1 rest := by simp [run, hs]
      rw [e0, ih (h.step_ok hs) (lt_of_lt_of_le ha (step_nacts_le hs))
        (afterFn_step h ha v e hpost hs)]
      by_cases hat : a = t
      · subst hat
        exact afterFn_step_c v e hpost (Trans.of_step hs)
      · rw [step_other hs hat ha]

/-- C4: a caller that found a `call` registered under its key (it is on lines
31 to 33, or it returned through line 33) has never invoked its `fn`, does not
invoke it and does not change the registry in its next statement. Once its
`call` is completed (the counter is 0), it passes `Wait` and returns within
its next three statements, with the pair stored in the `call`, still without
having invoked `fn`. It shares its `call` with another caller of the same key
that registered it; once that caller has executed `Done` the counter is 0 and
the `call` holds the pair its `fn` returned; once the `fn` of that caller has
returned `(v, e)`, the schedule can be continued so that both have returned
`(v, e)`; and once the waiter has returned, its result is the pair that the `fn`
of the registering caller returned, which is also the result of the
registering caller. And the lookup on line 30 that finds a `call` only reads
the group and sends the caller to the waiting path with that `call`. -/
theorem waiter_shares_result (s : State W) (hs : Reachable s) (b : Nat) (hb : b < s.nacts)
    (hw : (s.acts b).pc.waits ∨ (s.acts b).doneWait) :
    (s.acts b).calls = 0 ∧
    (∀ s', step s b = some s' → s'.g.m = s.g.m ∧ (s'.acts b).calls = 0) ∧
    ((s.heap (s.acts b).c).wg = 0 →
      ∃ n, n ≤ 3 ∧ ((run s (List.replicate n b)).acts b).pc = .done ∧
        ((run s (List.replicate n b)).acts b).result =
          ((s.heap (s.acts b).c).val, (s.heap (s.acts b).c).err) ∧
        ((run s (List.replicate n b)).acts b).calls = 0) ∧
    (∃ a, a < s.nacts ∧ a ≠ b ∧ (s.acts a).key = (s.acts b).key ∧
      (s.acts a).c = (s.acts b).c ∧ (s.acts a).ok = false ∧
      ((s.acts a).released →
        (s.heap (s.acts b).c).wg = 0 ∧ (s.heap (s.acts b).c).val = (s.acts a).rv ∧
        (s.heap (s.acts b).c).err = (s.acts a).re) ∧
      (∀ v e, afterFn s a v e →
        ∃ ys, ((run s ys).acts b).pc = .done ∧ ((run s ys).acts b).result = (v, e) ∧
          ((run s ys).acts a).pc = .done ∧ ((run s ys).acts a).result = (v, e) ∧
          ((run s ys).acts b).calls = 0 ∧ ((run s ys).acts a).calls = 1) ∧
      ((s.acts b).pc = .done →
        (s.acts a).calls = 1 ∧ (s.acts b).result = ((s.acts a).rv, (s.acts a).re) ∧
        ((s.acts a).pc = .done → (s.acts a).result = (s.acts b).result))) ∧
    (∀ (s2 : State W) (t c : Nat), t < s2.nacts → (s2.acts t).pc = .l30 →
      s2.g.lookup (s2.acts t).key = some c →
      ∃ s3, step s2 t = some s3 ∧ (s3.acts t).pc = .l31 ∧ (s3.acts t).c = c ∧
        (s3.acts t).ok = true ∧ s3.g = s2.g ∧ (s3.acts t).calls = (s2.acts t).calls) := by
  have h := hs.inv
  have hnc : ¬ ((s.acts b).pc.called ∨ (s.acts b).doneExec) := by
    rintro (h0 | h0)
    · rcases hw with hw | hw
      · exact Pc.waits_not_called hw h0
      · unfold Pc.called at h0; rw [hw.1] at h0; simp at h0
    · rcases hw with hw | hw
      · exact Pc.waits_ne_done hw h0.1
      · have := hw.2; rw [h0.2] at this; simp at this
  have hc0 := h.calls_zero b hb hnc
  have hcz : ∀ sched, ((run s sched).acts b).calls = 0 := by
    intro sched
    have hb1 : b < (run s sched).nacts := lt_of_lt_of_le hb (run_nacts_le s sched)
    apply (h.run_ok sched).calls_zero b hb1
    have hw1 := (waiter_run h b hb hw sched).1
    rintro (h0 | h0)
    · rcases hw1 with hw1 | hw1
      · exact Pc.waits_not_called hw1 h0
      · unfold Pc.called at h0; rw [hw1.1] at h0; simp at h0
    · rcases hw1 with hw1 | hw1
      · exact Pc.waits_ne_done hw1 h0.1
      · have := hw1.2; rw [h0.2] at this; simp at this
  refine ⟨hc0, ?_, ?_, ?_, ?_⟩
  rotate_right
  · intro s2 t c ht hp hl
    refine ⟨s2.setAct t { (s2.acts t) with c := c, ok := true, pc := .l31 }, ?_, ?_, ?_, ?_,
      ?_, ?_⟩
    · simp [step, ht, hp, hl]
    all_goals simp [State.setAct]
  · intro s' hst
    have htr := Trans.of_step hst
    rcases hw with hw | hw
    · have := htr.waits_keeps hw
      exact ⟨this.1, by rw [this.2]; exact hc0⟩
    · have := step_frozen hst hb (Or.inl hw.1)
      exfalso
      have h1 := hw.1
      clear h hs hw hnc this hst hc0 hcz
      cases htr <;> simp_all
  · intro hz
    obtain ⟨n, hn, h1, h2⟩ := waiter_returns h b hb hw hz
    exact ⟨n, hn, h1, h2, hcz _⟩
  · obtain ⟨a, ha, hk, hc, hwa, hrel⟩ := h.waiter b hb hw
    have hab : a ≠ b := by
      intro h0; subst h0
      rcases hw with hw | hw
      · exact (Frame.not_waits_of_reg hwa).1 hw
      · rcases hwa with h1 | h1 | h1
        · exact Pc.window_ne_done h1 hw.1
        · exact Pc.after_ne_done h1 hw.1
        · have := hw.2; rw [h1.2] at this; simp at this
    have hoa : (s.acts a).ok = false := by
      rcases hwa with h1 | h1 | h1
      · exact h.ok_exec a ha (Or.inr (Pc.window_exec h1))
      · exact h.ok_exec a ha (Or.inr (Pc.after_exec h1))
      · exact h1.2
    refine ⟨a, ha, hab, hk, hc, hoa, ?_, ?_, ?_⟩
    · intro hra
      have hp := h.published a ha (Or.inr hra)
      have hz := h.wg_zero a ha (Or.inr hra)
      rw [hc] at hp hz
      exact ⟨hz, hp.1, hp.2⟩
    · intro v e hpost
      obtain ⟨ys, hys⟩ := after_progress h a ha v e hpost _ (le_refl _)
      have h1 := h.run_ok ys
      have ha1 : a < (run s ys).nacts := lt_of_lt_of_le ha (run_nacts_le s ys)
      have hb1 : b < (run s ys).nacts := lt_of_lt_of_le hb (run_nacts_le s ys)
      have hpost1 := afterFn_run h ha v e hpost ys
      have hd1 := afterFn_done h1 a ha1 v e hpost1 hys
      have hde : ((run s ys).acts a).doneExec := by
        rcases hpost1.1 with hp | hp | hp | hp
        · rw [hys] at hp; simp at hp
        · rw [hys] at hp; simp at hp
        · exact absurd hys (Pc.after_ne_done hp)
        · exact hp
      have hw1 := waiter_run h b hb hw ys
      have hcc : ((run s ys).acts a).c = ((run s ys).acts b).c := by
        rw [afterFn_run_c h ha v e hpost ys, hw1.2]
        exact hc
      have hp := h1.published a ha1 (Or.inr (Or.inr hde))
      have hz := h1.wg_zero a ha1 (Or.inr (Or.inr hde))
      rw [hcc] at hp hz
      obtain ⟨n, _, h2, h3⟩ := waiter_returns h1 b hb1 hw1.1 hz
      have hfr := run_replicate_other (run s ys) b a n hab ha1
      refine ⟨ys ++ List.replicate n b, ?_⟩
      rw [run_append]
      refine ⟨h2, ?_, ?_, ?_, ?_, ?_⟩
      · rw [h3, hp.1, hp.2, hpost1.2.1, hpost1.2.2]
      · rw [hfr]; exact hys
      · rw [hfr]; exact hd1.1
      · rw [← run_append]; exact hcz _
      · rw [hfr]; exact hd1.2
    intro hd
    have hra := hrel (Or.inr hd)
    have hdw : (s.acts b).doneWait := by
      rcases hw with hw | hw
      · exact absurd hd (Pc.waits_ne_done hw)
      · exact hw
    have hp := h.published a ha (Or.inr hra)
    have hrb := h.result_wait b hb hdw
    have hca : (s.acts a).calls = 1 := by
      apply h.calls_one a ha
      rcases hra with h1 | h1
      · exact Or.inl (Pc.after_called h1)
      · exact Or.inr h1
    have hres : (s.acts b).result = ((s.acts a).rv, (s.acts a).re) := by
      rw [hrb, ← hc, hp.1, hp.2]
    refine ⟨hca, hres, ?_⟩
    intro hda
    rw [hres]
    exact h.result_exec a ha ⟨hda, hoa⟩

/-! ## Concrete runs -/

set_option maxRecDepth 100000 in
/-- Two calls `Do("k", incr)`, caller 0 just after `Lock`. After a schedule
that takes caller 0 into `fn` while caller 1 is parked in `Wait` on the
`call` of caller 0, `fn` returns `(1, nil)`: the schedule can be continued so
that caller 0 returns `(1, nil)`. And one call `Do("k", fn)` whose `fn` calls
`Do("j", incr)`: once the nested call has returned `(1, nil)`, the schedule can
be continued so that the outer call returns `(1, nil)`. -/
theorem Do_returns_fn_result_witness :
    ((lockedPair.acts 0).pc = .l27 ∧ lockedPair.g.lookup (lockedPair.acts 0).key = none ∧
      ((run lockedPair (List.replicate 6 0 ++ List.replicate 4 1 ++ [0])).acts 0).pc = .inFn ∧
      ((run lockedPair (List.replicate 6 0 ++ List.replicate 4 1 ++ [0])).acts 1).pc = .l32 ∧
      ∃ ys,
        ((run lockedPair (List.replicate 6 0 ++ List.replicate 4 1 ++ [0] ++ ys)).acts 0).pc
          = .done ∧
        ((run lockedPair (List.replicate 6 0 ++ List.replicate 4 1 ++ [0] ++ ys)).acts 0).result
          = (some 1, none) ∧
        ((run lockedPair (List.replicate 6 0 ++ List.replicate 4 1 ++ [0] ++ ys)).acts 0).calls
          = 1) ∧
    ((nestedState.acts 0).pc = .l27 ∧ nestedState.g.lookup (nestedState.acts 0).key = none ∧
      ((run nestedState (List.replicate 7 0 ++ List.replicate 15 1)).acts 0).pc = .inFn ∧
      ∃ ys,
        ((run nestedState (List.replicate 7 0 ++ List.replicate 15 1 ++ ys)).acts 0).pc
          = .done ∧
        ((run nestedState (List.replicate 7 0 ++ List.replicate 15 1 ++ ys)).acts 0).result
          = (some 1, none) ∧
        ((run nestedState (List.replicate 7 0 ++ List.replicate 15 1 ++ ys)).acts 0).calls
          = 1) :=
  ⟨⟨by decide, by decide, by decide, by decide,
    (Do_returns_fn_result lockedPair ⟨0, _, [0], rfl⟩ 0 (by decide) (by decide)
      (by decide)).2.2.2.1 (List.replicate 6 0 ++ List.replicate 4 1 ++ [0]) (some 1) none
      (by decide) (by decide)⟩,
   ⟨by decide, by decide, by decide,
    (Do_returns_fn_result nestedState ⟨0, _, [0], rfl⟩ 0 (by decide) (by decide)
      (by decide)).2.2.2.1 (List.replicate 7 0 ++ List.replicate 15 1) (some 1) none
      (by decide) (by decide)⟩⟩

set_option maxRecDepth 100000 in
/-- Two calls on `"k"`, caller 0 registered and about to call `fn`: the two
are not both between line 35 and the deletion. -/
theorem one_execution_per_key_witness :
    (registeredState.acts 0).key = (registeredState.acts 1).key ∧
    (registeredState.acts 0).pc = .l40 ∧
    ¬ ((registeredState.acts 0).pc.first ∧ (registeredState.acts 1).pc.first) :=
  ⟨by decide, by decide,
    (one_execution_per_key registeredState ⟨0, _, [0, 0, 0, 0, 0, 0, 0], rfl⟩ 0 1 (by decide)
      (by decide) (by decide) (by decide)).1⟩

set_option maxRecDepth 100000 in
/-- C3, counterexample: two calls `Do("k", incr)`, the second scheduled after
the first has returned: both have returned and the counter has increased by
2, not by 1. -/
theorem incr_twice_counterexample :
    ((run twoCalls (List.replicate 15 0 ++ List.replicate 15 1)).acts 0).pc = .done ∧
    ((run twoCalls (List.replicate 15 0 ++ List.replicate 15 1)).acts 1).pc = .done ∧
    twoCalls.world = 0 ∧
    (run twoCalls (List.replicate 15 0 ++ List.replicate 15 1)).world = 2 := by
  decide

set_option maxRecDepth 100000 in
/-- Two calls `Do("k", incr)`: caller 1 looks the key up while caller 0 is
registered, then both run to their return: the counter has increased by 1. -/
theorem incr_invoked_between_once_and_N_witness :
    (run (start 0 (List.replicate 2 ("k", incr)))
      ([0, 0, 0, 0, 0, 0, 0, 1, 1, 1, 1] ++ [0, 0, 0, 0, 0, 0, 0, 0, 1, 1])).world = 0 + 1 :=
  (incr_invoked_between_once_and_N 2 "k" 0 [0, 0, 0, 0, 0, 0, 0, 1, 1, 1, 1]
    [0, 0, 0, 0, 0, 0, 0, 0, 1, 1] (by decide) (by decide)).2.2 (by decide)

set_option maxRecDepth 100000 in
/-- Caller 1 found the `call` of caller 0 and is parked in `Wait`; caller 0
has returned `(1, nil)`, so the `call` is completed and holds `(1, nil)`:
caller 1 returns within three statements, with `(1, nil)`, and has not invoked
its function. -/
theorem waiter_shares_result_witness :
    (completedState.acts 1).pc = .l32 ∧
    (completedState.acts 0).result = (some 1, none) ∧
    (completedState.heap (completedState.acts 1).c).wg = 0 ∧
    (completedState.heap (completedState.acts 1).c).val = some 1 ∧
    (completedState.heap (completedState.acts 1).c).err = none ∧
    ∃ n, n ≤ 3 ∧ ((run completedState (List.replicate n 1)).acts 1).pc = .done ∧
      ((run completedState (List.replicate n 1)).acts 1).result =
        ((completedState.heap (completedState.acts 1).c).val,
          (completedState.heap (completedState.acts 1).c).err) ∧
      ((run completedState (List.replicate n 1)).acts 1).calls = 0 :=
  ⟨by decide, by decide, by decide, by decide, by decide,
    (waiter_shares_result completedState
      ⟨0, _, List.replicate 7 0 ++ List.replicate 4 1 ++ List.replicate 8 0, rfl⟩ 1
      (by decide) (Or.inl (by unfold Pc.waits; decide))).2.2.1 (by decide)⟩

set_option maxRecDepth 100000 in
/-- C5, counterexample: two calls `Do("k", incr)` on a zero-value group. Caller
0 finds `"k"` unregistered, runs the executing path up to and including its
`Unlock` on line 45; caller 1 then takes the lock, finds `"k"` unregistered and
registers its own `call`; caller 0 then returns from line 47. Caller 0 has
returned `(1, nil)` on the executing path and `"k"` is registered. So it is not
so that in every reachable configuration the key of a caller returned through
line 47 is absent from the registry. -/
theorem key_registered_after_Do_counterexample :
    twoCalls.g = Group.zero ∧
    (twoCalls.acts 0).key = "k" ∧
    (run twoCalls [0]).g.lookup "k" = none ∧
    (reRegistered.acts 0).pc = .done ∧
    (reRegistered.acts 0).ok = false ∧
    (reRegistered.acts 0).result = (some 1, none) ∧
    (reRegistered.acts 1).pc = .l38 ∧
    reRegistered.g.lookup "k" = some 1 ∧
    ¬ (∀ (s : State Nat) (b : Nat), Reachable s → b < s.nacts → (s.acts b).pc = .done →
      (s.acts b).ok = false → s.g.lookup (s.acts b).key = none) := by
  refine ⟨by decide, by decide, by decide, by decide, by decide, by decide, by decide,
    by decide, ?_⟩
  intro h
  have h1 := h reRegistered 0
    ⟨0, _, List.replicate 14 0 ++ List.replicate 6 1 ++ [0], rfl⟩ (by decide) (by decide)
    (by decide)
  revert h1
  decide

set_option maxRecDepth 100000 in
/-- One call `Do("k", incr)` on the zero-value group, nobody else moving:
afterwards the registry is the empty, non-nil map. -/
theorem own_call_removed_after_Do_witness :
    (start 0 [("k", incr)]).g = Group.zero ∧
    (run (start 0 [("k", incr)]) (List.replicate 15 0)).g.lookup "k" = none ∧
    (run (start 0 [("k", incr)]) (List.replicate 15 0)).g.m = some [] :=
  have h := own_call_removed_after_Do (start 0 [("k", incr)]) 0 incrBody (some 1) none 1
    (by decide) (by decide) (by decide) (by decide) rfl rfl
  ⟨rfl, h.2.2.1, h.2.2.2.2.1 (by decide)⟩

set_option maxRecDepth 100000 in
/-- Two calls `Do("k", incr)` one after the other: the first returns
`(1, nil)`, the second `(2, nil)`. -/
theorem sequential_calls_both_execute_witness :
    ((run twoCalls (List.replicate 15 0 ++ List.replicate 15 1)).acts 0).result = (some 1, none) ∧
    ((run twoCalls (List.replicate 15 0 ++ List.replicate 15 1)).acts 1).result = (some 2, none) :=
  have h := sequential_calls_both_execute twoCalls 0 1 incrBody incrBody (some 1) (some 2) none
    none 1 2 (by decide) (by decide) (by decide) (by decide) (by decide) (by decide) (by decide)
    (by decide) rfl rfl rfl rfl
  ⟨h.2.2.2.2.2.2.1, h.2.2.2.2.2.2.2.1⟩

set_option maxRecDepth 100000 in
/-- Caller 0 has `"a"` in flight; `Do("b", incr)` returns without waiting and
`"a"` is still registered to the same `call`. -/
theorem distinct_keys_isolated_witness :
    otherKeyState.g.lookup "a" = some 0 ∧ (otherKeyState.heap 0).wg = 1 ∧
    ((run otherKeyState (List.replicate 15 1)).acts 1).pc = .done ∧
    (run otherKeyState (List.replicate 15 1)).g.lookup "a" = some 0 :=
  have h := distinct_keys_isolated otherKeyState 1 incrBody (some 1) none 1 "a" 0 (by decide)
    (by decide) (by decide) (by decide) rfl rfl (by decide) (by decide) (by decide)
  ⟨by decide, by decide, h.1, h.2.2.2.1⟩

set_option maxRecDepth 100000 in
/-- After the panic of caller 0 and five more statements of the other
callers, the counter of its `call` is still 1. -/
theorem panic_leaves_call_registered_witness :
    (panicRun.acts 0).pc = .panicked ∧
    ((run panicRun [1, 2, 2, 2, 2, 2]).heap (panicRun.acts 0).c).wg = 1 :=
  ⟨by decide,
    (panic_leaves_call_registered panicRun
      ⟨0, _, [0, 0, 0, 0, 0, 0, 0, 0, 1, 1, 1, 1, 0], rfl⟩ 0 (by decide) (by decide)
      [1, 2, 2, 2, 2, 2]).2.2.1⟩

set_option maxRecDepth 100000 in
/-- The function of caller 0 calls `Do("k", incr)` again: the nested call ends
up in `Wait` on the `call` of caller 0. -/
theorem reentrant_Do_deadlocks_witness :
    (reentrantState.acts 0).pc = .l40 ∧ reentrantState.g.mu = none ∧
    ((run reentrantState [0, reentrantState.nacts, reentrantState.nacts, reentrantState.nacts,
      reentrantState.nacts]).acts reentrantState.nacts).pc = .l32 :=
  ⟨by decide, by decide,
    ((reentrant_Do_deadlocks reentrantState ⟨0, _, [0, 0, 0, 0, 0, 0, 0], rfl⟩ 0 (by decide)
      (by decide) incr rfl).1 (by decide)).2.1⟩

set_option maxRecDepth 100000 in
/-- A caller that has just taken the lock releases it within six statements. -/
theorem lock_never_held_in_fn_or_wait_witness :
    lockedState.g.mu = some 0 ∧
    ∃ n, n ≤ 6 ∧ (run lockedState (List.replicate n 0)).g.mu = none :=
  ⟨by decide,
    let ⟨n, h1, h2, _⟩ :=
      (lock_never_held_in_fn_or_wait lockedState ⟨0, [("k", incr)], [0], rfl⟩ 0).2 (by decide)
    ⟨n, h1, h2⟩⟩

end Singleflight
